import Mathlib

/-!
Shallow embedding of `src/hooks/determineColumnWidths.ts` from the
ResponsiveConductor repository, together with proofs about the column
width resolver and its debug-time validator.

Modelling choices:
* JavaScript numbers are rationals (`ℚ`); the one division in the code
  (`extraSpace / numGrowableElements`) is exact here, and `x / 0 = 0`
  in `ℚ` is harmless because the code never reads that quotient when
  the growable count is zero.
* `throw new Error(msg)` is `Except.error msg`; the entry point returns
  `Except String (List ℚ)`.
* The `widthMap` object is an association list built most-recent-first,
  so that first-match `List.lookup` realises the JS rule that later
  property writes shadow earlier ones.
* `Array.prototype.sort` (stable per the ECMAScript spec) is
  `List.insertionSort` (a stable sort, and one the kernel can
  evaluate on concrete inputs).
-/

namespace ResponsiveConductor

/-- Structure `IResponsiveConductorSchema` from `src/IResponsiveConductor.ts`.
The two optional booleans default to `false` (absent is falsy). -/
structure Schema where
  key : String
  minWidth : ℚ
  maxWidth : ℚ
  shrinkPriority : ℚ
  isAllowedToHide : Bool := false
  isAllowedToGrowBeyondMaxWidth : Bool := false
deriving DecidableEq

deriving instance DecidableEq for Except

/-- Line 2: `const DEBUG = true;`. -/
def DEBUG : Bool := true

/-- Error message thrown at lines 23-25. -/
def consecutiveMsg : String :=
  "[ResponsiveConductor] You must have consecutive shrinkPriorities, input error!"

/-- Error message thrown at lines 36-38. -/
def minWidthSumMsg : String :=
  "[ResponsiveConductor] You cannot have minWidths larger than the contentSize, overflow expected!"

/-- Error message thrown at lines 44-46. -/
def minOverMaxMsg : String :=
  "[ResponsiveConductor] You cannot have the schema.minWidth larger than the schema.maxWidth, input error!"

/-- Error message thrown at lines 54-56. -/
def duplicatePriorityMsg : String :=
  "[ResponsiveConductor] You cannot have the same shrinkPriority for multiple schemas, input error!"

/-- Error message thrown at lines 64-67. -/
def duplicateKeyMsg : String :=
  "[ResponsiveConductor] You cannot have the same key for multiple schemas, input error!"

/-- Lines 21-27: the loop over adjacent entries of the ascending-sorted
priority list, throwing when `sorted[i] + 1 !== sorted[i+1]`. -/
def checkConsecutive : List ℚ → Except String Unit
  | a :: b :: rest =>
    if a + 1 ≠ b then .error consecutiveMsg else checkConsecutive (b :: rest)
  | _ => .ok ()

/-- Lines 8-71, `determineColumnWidthsDebugs`: the debug-time validator.
The `.some(...)` walks that throw on the first offender are rendered as
existence checks (`List.any` / `Nodup`) because every offender triggers
the same constant message; the seen-`Set` duplicate walks throw exactly
when the mapped list is not `Nodup`.  The early `if (!DEBUG) return` is
omitted because `DEBUG` is the constant `true`. -/
def determineColumnWidthsDebugs (contentWidth : ℚ) (schemas : List Schema) :
    Except String Unit :=
  (checkConsecutive
      (List.insertionSort (fun a b => a ≤ b)
        (schemas.map (fun s => s.shrinkPriority)))).bind (fun _ =>
    if (schemas.map (fun s => s.minWidth)).sum > contentWidth then
      .error minWidthSumMsg
    else if schemas.any (fun s => decide (s.maxWidth < s.minWidth)) then
      .error minOverMaxMsg
    else if ¬ (schemas.map (fun s => s.shrinkPriority)).Nodup then
      .error duplicatePriorityMsg
    else if ¬ (schemas.map (fun s => s.key)).Nodup then
      .error duplicateKeyMsg
    else .ok ())

/-- The comparator `(a, b) => a.shrinkPriority - b.shrinkPriority`
(lines 118-119) as the order relation for the stable sort. -/
def prioLE (a b : Schema) : Prop := a.shrinkPriority ≤ b.shrinkPriority

instance : DecidableRel prioLE := fun a b =>
  inferInstanceAs (Decidable (a.shrinkPriority ≤ b.shrinkPriority))

/-- Lines 104-118: the schemas with `isAllowedToHide` falsy, in input
order, sorted stably by ascending `shrinkPriority`. -/
def fixedVisible (schemas : List Schema) : List Schema :=
  List.insertionSort prioLE (schemas.filter (fun s => !s.isAllowedToHide))

/-- Lines 104-119: the schemas with `isAllowedToHide` true, in input
order, sorted stably by ascending `shrinkPriority`. -/
def hideables (schemas : List Schema) : List Schema :=
  List.insertionSort prioLE (schemas.filter (fun s => s.isAllowedToHide))

/-- Lines 134-156: the backwards overflow-shrink loop.  The source
walks the widths array from the last index down to index 0 while
`remainingContentWidth < 0`; this recursion first processes the tail
(the higher indices) and hands the updated remainder to the head, which
is exactly the backwards walk.  Each step reduces the width by
`min(-remaining, width - minWidth)` (lines 143-154); once the remainder
is no longer negative the earlier (lower-index) widths pass through
unchanged. -/
def shrinkBack : List (Schema × ℚ) → ℚ → List ℚ × ℚ
  | [], rem => ([], rem)
  | (s, w) :: rest, rem =>
    let p := shrinkBack rest rem
    if p.2 < 0 then
      ((w - min (-p.2) (w - s.minWidth)) :: p.1,
       p.2 + min (-p.2) (w - s.minWidth))
    else (w :: p.1, p.2)

/-- Lines 121-156: start every fixed-visible item at its `maxWidth`
(line 122), compute `remainingContentWidth` (line 129) and, when it is
negative, run the shrink loop (guard at line 134).  Returns the current
widths (in processing order) and the remaining content width. -/
def postShrink (contentWidth : ℚ) (schemas : List Schema) : List ℚ × ℚ :=
  let vs := fixedVisible schemas
  let ws := vs.map (fun s => s.maxWidth)
  let rem := contentWidth - ws.sum
  if rem < 0 then shrinkBack (vs.zip ws) rem
  else (ws, rem)

/-- Lines 160-166: the body of the reintroduction loop.  Each hideable
whose `minWidth` fits in the remaining width is admitted with width
`min(maxWidth, remaining)`, which is deducted; the others are skipped. -/
def reintroduce : List Schema → ℚ → List (Schema × ℚ) × ℚ
  | [], rem => ([], rem)
  | h :: rest, rem =>
    if rem ≥ h.minWidth then
      let w := min h.maxWidth rem
      let p := reintroduce rest (rem - w)
      ((h, w) :: p.1, p.2)
    else reintroduce rest rem

/-- Lines 158-167: the reintroduction pass runs only under the guard
`remainingContentWidth > 0` (line 159).  Returns the admitted
(schema, width) pairs and the remaining content width after them. -/
def admittedPairs (contentWidth : ℚ) (schemas : List Schema) :
    List (Schema × ℚ) × ℚ :=
  if (postShrink contentWidth schemas).2 > 0 then
    reintroduce (hideables schemas) (postShrink contentWidth schemas).2
  else ([], (postShrink contentWidth schemas).2)

/-- Lines 158-167: admitted hideables are appended (pushed) to the
visible list and the width list.  Returns the final visible list, its
current widths, and the remaining content width. -/
def afterReintro (contentWidth : ℚ) (schemas : List Schema) :
    List Schema × List ℚ × ℚ :=
  (fixedVisible schemas ++ (admittedPairs contentWidth schemas).1.map Prod.fst,
   ((postShrink contentWidth schemas).1
      ++ (admittedPairs contentWidth schemas).1.map Prod.snd,
    (admittedPairs contentWidth schemas).2))

/-- The visible set after reintroduction (fixed-visible followed by the
admitted hideables), used by the Step 5/6 branch conditions. -/
def visibleFinal (contentWidth : ℚ) (schemas : List Schema) : List Schema :=
  (afterReintro contentWidth schemas).1

/-- The current widths of the visible set after shrink and
reintroduction (`initialWidths` at line 184 of the source). -/
def currentWidths (contentWidth : ℚ) (schemas : List Schema) : List ℚ :=
  (afterReintro contentWidth schemas).2.1

/-- Lines 170-173 and 30-33: sum of `minWidth` over a schema list. -/
def sumMin (l : List Schema) : ℚ := (l.map (fun s => s.minWidth)).sum

/-- Lines 185-188: sum of `maxWidth` over a schema list. -/
def sumMax (l : List Schema) : ℚ := (l.map (fun s => s.maxWidth)).sum

/-- Lines 220-235: the first-come distribution loop of the constrained
branch.  Widths start at `minWidth` (line 217); while the remaining
budget is positive each item in order takes
`min(maxWidth - currentWidth, remaining)` provided
`currentWidth < maxWidth`. -/
def distribute : List Schema → ℚ → List ℚ
  | [], _ => []
  | s :: rest, rem =>
    if 0 < rem then
      if s.minWidth < s.maxWidth then
        let add := min (s.maxWidth - s.minWidth) rem
        (s.minWidth + add) :: distribute rest (rem - add)
      else
        s.minWidth :: distribute rest rem
    else (s :: rest).map (fun t => t.minWidth)

/-- Line 197: the number of visible schemas allowed to grow beyond
their `maxWidth`. -/
def growCount (l : List Schema) : ℕ :=
  (l.filter (fun s => s.isAllowedToGrowBeyondMaxWidth)).length

/-- Lines 169-244: the three final branches, producing the visible list
together with its computed widths.
* Step 5 fallback (lines 176-182): if the visible `minWidth` sum
  exceeds `contentWidth`, every visible item gets its `minWidth`.
* Slack branch (lines 190-213): `extraSpace / numGrowableElements` is
  added to every growable item's current width (in `ℚ`, the quotient is
  the junk value `0` when there are zero growable items, mirroring the
  JS `Infinity`/`NaN` quotient that is likewise never added to any item).
* Constrained branch (lines 214-244): the first-come distribution over
  widths restarted at `minWidth` (line 217). -/
def resolverAssignment (contentWidth : ℚ) (schemas : List Schema) :
    List Schema × List ℚ :=
  if sumMin (visibleFinal contentWidth schemas) > contentWidth then
    (visibleFinal contentWidth schemas,
     (visibleFinal contentWidth schemas).map (fun s => s.minWidth))
  else if contentWidth ≥ sumMax (visibleFinal contentWidth schemas) then
    (visibleFinal contentWidth schemas,
     ((visibleFinal contentWidth schemas).zip
        (currentWidths contentWidth schemas)).map (fun p =>
       if p.1.isAllowedToGrowBeyondMaxWidth then
         p.2 + (contentWidth - sumMax (visibleFinal contentWidth schemas))
             / (growCount (visibleFinal contentWidth schemas) : ℚ)
       else p.2))
  else
    (visibleFinal contentWidth schemas,
     distribute (visibleFinal contentWidth schemas)
       (contentWidth - sumMin (visibleFinal contentWidth schemas)))

/-- The JS object write `widthMap[schema.key] = w` shadows earlier
writes, so the association list is built most-recent-first and read with
first-match lookup. -/
def widthMapOf (vf : List Schema) (ws : List ℚ) : List (String × ℚ) :=
  ((vf.zip ws).map (fun p => (p.1.key, p.2))).reverse

/-- The key-to-width map the resolver builds before reassembly
(lines 177-179, 208-210, 238-240). -/
def resolverWidthMap (contentWidth : ℚ) (schemas : List Schema) :
    List (String × ℚ) :=
  widthMapOf (resolverAssignment contentWidth schemas).1
    (resolverAssignment contentWidth schemas).2

/-- Lookup `widthMap[schema.key] ?? 0` (lines 181, 213, 243). -/
def lookupD (m : List (String × ℚ)) (k : String) : ℚ := (m.lookup k).getD 0

/-- Lines 101-244: the resolver without the debug validator —
`return schemas.map((schema) => widthMap[schema.key] ?? 0)`. -/
def determineColumnWidthsCore (contentWidth : ℚ) (schemas : List Schema) :
    List ℚ :=
  schemas.map (fun s => lookupD (resolverWidthMap contentWidth schemas) s.key)

/-- Lines 88-245, `determineColumnWidths`: the empty-input early return
(lines 93-95), then the always-enabled debug validator (lines 97-99,
with `DEBUG = true`), then the resolver. -/
def determineColumnWidths (contentWidth : ℚ) (schemas : List Schema) :
    Except String (List ℚ) :=
  if schemas.isEmpty then .ok []
  else
    match (if DEBUG then determineColumnWidthsDebugs contentWidth schemas
           else .ok ()) with
    | .error e => .error e
    | .ok _ => .ok (determineColumnWidthsCore contentWidth schemas)

/-- Schema `{key:a, min:50, max:100, pr:1}` used by the test file. -/
def schemaA : Schema := ⟨"a", 50, 100, 1, false, false⟩

/-- Schema `{key:b, min:100, max:200, pr:2}`. -/
def schemaB : Schema := ⟨"b", 100, 200, 2, false, false⟩

/-- Schema `{key:b, min:100, max:200, pr:2, hide:true}`. -/
def schemaBHide : Schema := ⟨"b", 100, 200, 2, true, false⟩

/-- Schema `{key:c, min:50, max:150, pr:3, grow:true}`. -/
def schemaCGrow : Schema := ⟨"c", 50, 150, 3, false, true⟩

/-- Schema `{key:d, min:50, max:100, pr:4}`. -/
def schemaD : Schema := ⟨"d", 50, 100, 4, false, false⟩


/-! ### Generic list and lookup helpers -/

instance : Inhabited Schema := ⟨⟨"", 0, 0, 0, false, false⟩⟩

theorem sum_map_add (l : List Schema) (f g : Schema → ℚ) :
    (l.map (fun x => f x + g x)).sum = (l.map f).sum + (l.map g).sum := by
  induction l with
  | nil => simp
  | cons x rest ih => simp [ih]; ring

theorem sum_map_filter_add (l : List Schema) (p : Schema → Bool) (f : Schema → ℚ) :
    ((l.filter (fun x => !p x)).map f).sum + ((l.filter p).map f).sum
      = (l.map f).sum := by
  have h2 : ((l.filter p ++ l.filter (fun x => !p x)).map f).sum = (l.map f).sum :=
    ((List.filter_append_perm p l).map f).sum_eq
  rw [List.map_append, List.sum_append] at h2
  linarith

theorem sum_map_insertionSort (r : Schema → Schema → Prop) [DecidableRel r]
    (l : List Schema) (f : Schema → ℚ) :
    ((List.insertionSort r l).map f).sum = (l.map f).sum :=
  (((List.perm_insertionSort r l)).map f).sum_eq

theorem lookup_eq_none_of_not_mem {m : List (String × ℚ)} {k : String}
    (h : k ∉ m.map Prod.fst) : m.lookup k = none := by
  induction m with
  | nil => rfl
  | cons p rest ih =>
    have hk : ¬ (k = p.1) := fun he => h (by simp [he])
    have hr : k ∉ rest.map Prod.fst := fun he => h (by simp [he])
    obtain ⟨k', v'⟩ := p
    have hb : (k == k') = false := beq_eq_false_iff_ne.mpr hk
    simp only [List.lookup, hb]
    exact ih hr

theorem lookup_eq_some_of_mem {m : List (String × ℚ)} {k : String} {v : ℚ}
    (hnd : (m.map Prod.fst).Nodup) (hm : (k, v) ∈ m) : m.lookup k = some v := by
  induction m with
  | nil => simp at hm
  | cons p rest ih =>
    obtain ⟨k', v'⟩ := p
    rcases List.mem_cons.mp hm with h | h
    · rw [Prod.mk.injEq] at h
      obtain ⟨rfl, rfl⟩ := h
      simp [List.lookup]
    · have hk' : k' ∉ rest.map Prod.fst := (List.nodup_cons.mp hnd).1
      have hkmem : k ∈ rest.map Prod.fst :=
        List.mem_map.mpr ⟨(k, v), h, rfl⟩
      have hne : ¬ (k = k') := fun he => hk' (he ▸ hkmem)
      have hb : (k == k') = false := beq_eq_false_iff_ne.mpr hne
      simp only [List.lookup, hb]
      exact ih (List.nodup_cons.mp hnd).2 h

theorem mem_of_lookup_eq_some {m : List (String × ℚ)} {k : String} {v : ℚ}
    (h : m.lookup k = some v) : (k, v) ∈ m := by
  induction m with
  | nil => simp [List.lookup] at h
  | cons p rest ih =>
    obtain ⟨k', v'⟩ := p
    by_cases he : k = k'
    · subst he
      simp [List.lookup] at h
      simp [h]
    · have hb : (k == k') = false := beq_eq_false_iff_ne.mpr he
      simp only [List.lookup, hb] at h
      exact List.mem_cons_of_mem _ (ih h)

/-! ### Structure of the visible set -/

theorem mem_fixedVisible {s : Schema} {schemas : List Schema}
    (h : s ∈ fixedVisible schemas) : s ∈ schemas :=
  List.mem_of_mem_filter ((List.perm_insertionSort prioLE _).mem_iff.mp h)

theorem mem_hideables {s : Schema} {schemas : List Schema}
    (h : s ∈ hideables schemas) : s ∈ schemas :=
  List.mem_of_mem_filter ((List.perm_insertionSort prioLE _).mem_iff.mp h)

theorem shrinkBack_length (l : List (Schema × ℚ)) (rem : ℚ) :
    (shrinkBack l rem).1.length = l.length := by
  induction l with
  | nil => simp [shrinkBack]
  | cons p rest ih =>
    obtain ⟨s, w⟩ := p
    by_cases h : (shrinkBack rest rem).2 < 0
    · simp [shrinkBack, h, ih]
    · simp [shrinkBack, h, ih]

theorem postShrink_length (cw : ℚ) (schemas : List Schema) :
    (postShrink cw schemas).1.length = (fixedVisible schemas).length := by
  unfold postShrink
  by_cases h :
      cw - ((fixedVisible schemas).map (fun s => s.maxWidth)).sum < 0
  · simp [h, shrinkBack_length, List.length_zip, List.length_map]
  · simp [h]

theorem reintroduce_sublist (hs : List Schema) (rem : ℚ) :
    ((reintroduce hs rem).1.map Prod.fst).Sublist hs := by
  induction hs generalizing rem with
  | nil => simp [reintroduce]
  | cons h rest ih =>
    by_cases hc : rem ≥ h.minWidth
    · simpa [reintroduce, hc] using
        List.Sublist.cons₂ h (ih (rem - min h.maxWidth rem))
    · simpa [reintroduce, hc] using List.Sublist.cons h (ih rem)

theorem reintroduce_mem {hs : List Schema} {rem : ℚ} {p : Schema × ℚ}
    (hp : p ∈ (reintroduce hs rem).1) : p.1 ∈ hs :=
  (reintroduce_sublist hs rem).subset (List.mem_map_of_mem Prod.fst hp)

theorem reintroduce_rem_nonneg (hs : List Schema) (rem : ℚ) (h : 0 ≤ rem) :
    0 ≤ (reintroduce hs rem).2 := by
  induction hs generalizing rem with
  | nil => simpa [reintroduce] using h
  | cons x rest ih =>
    by_cases hc : rem ≥ x.minWidth
    · have hw : min x.maxWidth rem ≤ rem := min_le_right _ _
      simpa [reintroduce, hc] using
        ih (rem - min x.maxWidth rem) (by linarith)
    · simpa [reintroduce, hc] using ih rem h

theorem admittedPairs_sublist (cw : ℚ) (schemas : List Schema) :
    ((admittedPairs cw schemas).1.map Prod.fst).Sublist (hideables schemas) := by
  unfold admittedPairs
  by_cases h : (postShrink cw schemas).2 > 0
  · simpa [h] using
      reintroduce_sublist (hideables schemas) (postShrink cw schemas).2
  · simp [h]

theorem mem_visibleFinal {cw : ℚ} {schemas : List Schema} {s : Schema}
    (h : s ∈ visibleFinal cw schemas) : s ∈ schemas := by
  unfold visibleFinal afterReintro at h
  rcases List.mem_append.mp h with h | h
  · exact mem_fixedVisible h
  · exact mem_hideables ((admittedPairs_sublist cw schemas).subset h)

theorem currentWidths_length (cw : ℚ) (schemas : List Schema) :
    (currentWidths cw schemas).length = (visibleFinal cw schemas).length := by
  unfold currentWidths visibleFinal afterReintro
  simp [postShrink_length]

theorem distribute_length (vs : List Schema) (B : ℚ) :
    (distribute vs B).length = vs.length := by
  induction vs generalizing B with
  | nil => simp [distribute]
  | cons s rest ih =>
    by_cases h : 0 < B
    · by_cases h2 : s.minWidth < s.maxWidth
      · simp [distribute, h, h2, ih]
      · simp [distribute, h, h2, ih]
    · simp [distribute, h]

theorem resolverAssignment_fst (cw : ℚ) (schemas : List Schema) :
    (resolverAssignment cw schemas).1 = visibleFinal cw schemas := by
  unfold resolverAssignment
  by_cases h1 : sumMin (visibleFinal cw schemas) > cw
  · simp [h1]
  · by_cases h2 : cw ≥ sumMax (visibleFinal cw schemas)
    · simp [h1, h2]
    · simp [h1, h2]

theorem resolverAssignment_length (cw : ℚ) (schemas : List Schema) :
    (resolverAssignment cw schemas).2.length
      = (visibleFinal cw schemas).length := by
  unfold resolverAssignment
  by_cases h1 : sumMin (visibleFinal cw schemas) > cw
  · simp [h1]
  · by_cases h2 : cw ≥ sumMax (visibleFinal cw schemas)
    · simp [h1, h2, List.length_zip, currentWidths_length cw schemas]
    · simp [h1, h2, distribute_length]

theorem keys_nodup_parts {schemas : List Schema}
    (h : (schemas.map (fun s => s.key)).Nodup) :
    ((schemas.filter (fun s => s.isAllowedToHide)).map (fun s => s.key)
      ++ (schemas.filter (fun s => !s.isAllowedToHide)).map
          (fun s => s.key)).Nodup := by
  have hp := List.filter_append_perm (fun s => s.isAllowedToHide) schemas
  have htr := (hp.map (fun s => s.key)).nodup_iff.mpr h
  simpa [List.map_append] using htr

theorem nodup_keys_visibleFinal {cw : ℚ} {schemas : List Schema}
    (h : (schemas.map (fun s => s.key)).Nodup) :
    ((visibleFinal cw schemas).map (fun s => s.key)).Nodup := by
  have hparts := keys_nodup_parts h
  rw [List.nodup_append] at hparts
  obtain ⟨hB, hA, hdisj⟩ := hparts
  have hfvA : ∀ a, a ∈ (fixedVisible schemas).map (fun s => s.key) →
      a ∈ (schemas.filter (fun s => !s.isAllowedToHide)).map (fun s => s.key) :=
    fun a ha => ((List.perm_insertionSort prioLE _).map (fun s => s.key)).mem_iff.mp ha
  have hadB : ∀ a,
      a ∈ ((admittedPairs cw schemas).1.map Prod.fst).map (fun s => s.key) →
      a ∈ (schemas.filter (fun s => s.isAllowedToHide)).map (fun s => s.key) := by
    intro a ha
    have h1 : a ∈ (hideables schemas).map (fun s => s.key) :=
      ((admittedPairs_sublist cw schemas).map (fun s => s.key)).subset ha
    exact ((List.perm_insertionSort prioLE _).map (fun s => s.key)).mem_iff.mp h1
  unfold visibleFinal afterReintro
  rw [List.map_append, List.nodup_append]
  refine ⟨?_, ?_, ?_⟩
  · exact ((List.perm_insertionSort prioLE _).map (fun s => s.key)).nodup_iff.mpr hA
  · have h2 : ((hideables schemas).map (fun s => s.key)).Nodup :=
      ((List.perm_insertionSort prioLE _).map (fun s => s.key)).nodup_iff.mpr hB
    exact ((admittedPairs_sublist cw schemas).map (fun s => s.key)).nodup h2
  · intro a ha hb
    exact hdisj (hadB a hb) (hfvA a ha)

/-! ### Summing the reassembled widths -/

theorem sum_map_ite_key (l : List Schema) (k : String) (v : ℚ)
    (hnd : (l.map (fun s => s.key)).Nodup) (hk : k ∈ l.map (fun s => s.key)) :
    (l.map (fun s => if s.key = k then v else 0)).sum = v := by
  induction l with
  | nil => simp at hk
  | cons s rest ih =>
    rw [List.map_cons, List.nodup_cons] at hnd
    by_cases h : s.key = k
    · have hz : ∀ x ∈ rest.map (fun t => if t.key = k then v else 0), x = 0 := by
        intro x hx
        obtain ⟨t, ht, rfl⟩ := List.mem_map.mp hx
        have hne : t.key ≠ k := by
          intro he
          exact hnd.1 (by rw [h, ← he]; exact List.mem_map_of_mem _ ht)
        simp [hne]
      simp [h, List.sum_eq_zero hz]
    · have hk' : k ∈ rest.map (fun s => s.key) := by
        rw [List.map_cons] at hk
        rcases List.mem_cons.mp hk with he | he
        · exact absurd he.symm h
        · exact he
      simp [h, ih hnd.2 hk']

theorem sum_lookupD (schemas : List Schema) (m : List (String × ℚ))
    (hs : (schemas.map (fun s => s.key)).Nodup)
    (hm : (m.map Prod.fst).Nodup)
    (hsub : ∀ k ∈ m.map Prod.fst, k ∈ schemas.map (fun s => s.key)) :
    (schemas.map (fun s => lookupD m s.key)).sum = (m.map Prod.snd).sum := by
  induction m with
  | nil =>
    have hz : ∀ x ∈ schemas.map
        (fun s => lookupD ([] : List (String × ℚ)) s.key), x = 0 := by
      intro x hx
      obtain ⟨t, _, rfl⟩ := List.mem_map.mp hx
      rfl
    simp [List.sum_eq_zero hz]
  | cons p rest ih =>
    obtain ⟨k, v⟩ := p
    rw [List.map_cons, List.nodup_cons] at hm
    have hpoint : ∀ s : Schema,
        lookupD ((k, v) :: rest) s.key
          = (if s.key = k then v else 0) + lookupD rest s.key := by
      intro s
      by_cases h : s.key = k
      · have h0 : rest.lookup k = none := lookup_eq_none_of_not_mem hm.1
        have hb : (s.key == k) = true := beq_iff_eq.mpr h
        simp [lookupD, List.lookup, hb, h, h0]
      · have hb : (s.key == k) = false := beq_eq_false_iff_ne.mpr h
        simp [lookupD, List.lookup, hb, h]
    have hmap : schemas.map (fun s => lookupD ((k, v) :: rest) s.key)
        = schemas.map (fun s => (if s.key = k then v else 0) + lookupD rest s.key) :=
      List.map_congr_left (fun s _ => hpoint s)
    rw [hmap, sum_map_add, sum_map_ite_key schemas k v hs (hsub k (by simp)),
      ih hm.2 (fun k' hk' => hsub k' (List.mem_cons_of_mem _ hk'))]
    simp

/-! ### Unfolding equations and simple arithmetic facts -/

theorem reintroduce_cons_fits {x : Schema} {rest : List Schema} {rem : ℚ}
    (hc : x.minWidth ≤ rem) :
    reintroduce (x :: rest) rem
      = ((x, min x.maxWidth rem)
            :: (reintroduce rest (rem - min x.maxWidth rem)).1,
         (reintroduce rest (rem - min x.maxWidth rem)).2) := by
  simp [reintroduce, show rem ≥ x.minWidth from hc]

theorem reintroduce_cons_skip {x : Schema} {rest : List Schema} {rem : ℚ}
    (hc : rem < x.minWidth) :
    reintroduce (x :: rest) rem = reintroduce rest rem := by
  simp [reintroduce, show ¬ rem ≥ x.minWidth from not_le.mpr hc]

theorem distribute_cons_pos_lt {s : Schema} {rest : List Schema} {rem : ℚ}
    (h : 0 < rem) (h2 : s.minWidth < s.maxWidth) :
    distribute (s :: rest) rem
      = (s.minWidth + min (s.maxWidth - s.minWidth) rem)
          :: distribute rest (rem - min (s.maxWidth - s.minWidth) rem) := by
  simp [distribute, h, h2]

theorem distribute_cons_pos_ge {s : Schema} {rest : List Schema} {rem : ℚ}
    (h : 0 < rem) (h2 : ¬ s.minWidth < s.maxWidth) :
    distribute (s :: rest) rem = s.minWidth :: distribute rest rem := by
  simp [distribute, h, h2]

theorem distribute_cons_nonpos {s : Schema} {rest : List Schema} {rem : ℚ}
    (h : ¬ 0 < rem) :
    distribute (s :: rest) rem = (s :: rest).map (fun t => t.minWidth) := by
  simp [distribute, h]

theorem sumMin_append (l₁ l₂ : List Schema) :
    sumMin (l₁ ++ l₂) = sumMin l₁ + sumMin l₂ := by
  unfold sumMin
  simp

theorem sumMax_append (l₁ l₂ : List Schema) :
    sumMax (l₁ ++ l₂) = sumMax l₁ + sumMax l₂ := by
  unfold sumMax
  simp

theorem sumMin_le_sumMax {l : List Schema}
    (h : ∀ s ∈ l, s.minWidth ≤ s.maxWidth) : sumMin l ≤ sumMax l :=
  List.sum_le_sum h

theorem sumMin_visibleFinal_le (cw : ℚ) (schemas : List Schema)
    (h0 : ∀ s ∈ schemas, 0 ≤ s.minWidth) :
    sumMin (visibleFinal cw schemas)
      ≤ (schemas.map (fun s => s.minWidth)).sum := by
  have hfv : sumMin (fixedVisible schemas)
      = ((schemas.filter (fun s => !s.isAllowedToHide)).map
          (fun s => s.minWidth)).sum :=
    sum_map_insertionSort _ _ _
  have hhid : sumMin (hideables schemas)
      = ((schemas.filter (fun s => s.isAllowedToHide)).map
          (fun s => s.minWidth)).sum :=
    sum_map_insertionSort _ _ _
  have hsubl : (((admittedPairs cw schemas).1.map Prod.fst).map
        (fun s => s.minWidth)).Sublist
      ((hideables schemas).map (fun s => s.minWidth)) :=
    (admittedPairs_sublist cw schemas).map _
  have hnn : ∀ x ∈ (hideables schemas).map (fun s => s.minWidth), 0 ≤ x := by
    intro x hx
    obtain ⟨t, ht, rfl⟩ := List.mem_map.mp hx
    exact h0 t (mem_hideables ht)
  have hle : sumMin ((admittedPairs cw schemas).1.map Prod.fst)
      ≤ sumMin (hideables schemas) := hsubl.sum_le_sum hnn
  have hsplit := sum_map_filter_add schemas (fun s => s.isAllowedToHide)
      (fun s => s.minWidth)
  have hvf : sumMin (visibleFinal cw schemas)
      = sumMin (fixedVisible schemas)
        + sumMin ((admittedPairs cw schemas).1.map Prod.fst) := by
    unfold visibleFinal afterReintro
    exact sumMin_append _ _
  rw [hvf, hfv]
  rw [hhid] at hle
  linarith

/-! ### Extracting facts from a successful validation -/

theorem debugs_ok {cw : ℚ} {schemas : List Schema}
    (h : determineColumnWidthsDebugs cw schemas = .ok ()) :
    (schemas.map (fun s => s.minWidth)).sum ≤ cw
      ∧ (∀ s ∈ schemas, s.minWidth ≤ s.maxWidth)
      ∧ (schemas.map (fun s => s.shrinkPriority)).Nodup
      ∧ (schemas.map (fun s => s.key)).Nodup := by
  unfold determineColumnWidthsDebugs at h
  cases hc : checkConsecutive (List.insertionSort (fun a b => a ≤ b)
      (schemas.map (fun s => s.shrinkPriority))) with
  | error e =>
    rw [hc] at h
    exact absurd h (by simp [Except.bind])
  | ok u =>
    rw [hc] at h
    simp only [Except.bind] at h
    split_ifs at h with h1 h2 h3 h4
    · refine ⟨le_of_not_lt h1, ?_, h3, h4⟩
      intro s hs
      by_contra hlt
      have : schemas.any (fun s => decide (s.maxWidth < s.minWidth)) = true :=
        List.any_eq_true.mpr ⟨s, hs, by simpa using not_le.mp hlt⟩
      exact h2 this

theorem determineColumnWidths_ok_core {cw : ℚ} {schemas : List Schema}
    {ws : List ℚ} (h : determineColumnWidths cw schemas = .ok ws) :
    ws = determineColumnWidthsCore cw schemas := by
  unfold determineColumnWidths at h
  by_cases hne : schemas.isEmpty
  · have he : schemas = [] := List.isEmpty_iff.mp hne
    subst he
    simp at h
    rw [h]
    rfl
  · rw [if_neg hne] at h
    rw [show (if DEBUG then determineColumnWidthsDebugs cw schemas
        else Except.ok ()) = determineColumnWidthsDebugs cw schemas
      from if_pos rfl] at h
    cases hd : determineColumnWidthsDebugs cw schemas with
    | error e =>
      rw [hd] at h
      exact absurd h (by simp)
    | ok u =>
      rw [hd] at h
      simpa using h.symm

theorem determineColumnWidths_ok_debugs {cw : ℚ} {schemas : List Schema}
    {ws : List ℚ} (hne : schemas ≠ [])
    (h : determineColumnWidths cw schemas = .ok ws) :
    determineColumnWidthsDebugs cw schemas = .ok () := by
  unfold determineColumnWidths at h
  rw [if_neg (by simpa using hne)] at h
  rw [show (if DEBUG then determineColumnWidthsDebugs cw schemas
      else Except.ok ()) = determineColumnWidthsDebugs cw schemas
    from if_pos rfl] at h
  cases hd : determineColumnWidthsDebugs cw schemas with
  | error e =>
    rw [hd] at h
    exact absurd h (by simp)
  | ok u =>
    cases u
    rfl

/-! ### The slack branch admits hideables only at full width -/

theorem reintroduce_dichotomy (hs : List Schema) (rem : ℚ)
    (hgood : ∀ h ∈ hs, 0 ≤ h.minWidth ∧ h.minWidth ≤ h.maxWidth)
    (hrem : 0 ≤ rem) :
    ((∀ p ∈ (reintroduce hs rem).1, p.2 = p.1.maxWidth)
      ∧ (reintroduce hs rem).2
          = rem - (((reintroduce hs rem).1.map Prod.fst).map
              (fun s => s.maxWidth)).sum)
    ∨ rem < (((reintroduce hs rem).1.map Prod.fst).map
        (fun s => s.maxWidth)).sum := by
  induction hs generalizing rem with
  | nil => exact Or.inl ⟨by simp [reintroduce], by simp [reintroduce]⟩
  | cons x rest ih =>
    have hrest : ∀ h ∈ rest, 0 ≤ h.minWidth ∧ h.minWidth ≤ h.maxWidth :=
      fun h hh => hgood h (List.mem_cons_of_mem x hh)
    by_cases hc : x.minWidth ≤ rem
    · by_cases hmx : x.maxWidth ≤ rem
      · have hw : min x.maxWidth rem = x.maxWidth := min_eq_left hmx
        rw [reintroduce_cons_fits hc, hw]
        rcases ih (rem - x.maxWidth) hrest (by linarith) with ⟨hall, heq⟩ | hlt
        · left
          refine ⟨?_, ?_⟩
          · intro p hp
            rcases List.mem_cons.mp hp with hp | hp
            · rw [hp]
            · exact hall p hp
          · simp only [List.map_cons, List.sum_cons]
            rw [heq]
            ring
        · right
          simp only [List.map_cons, List.sum_cons]
          linarith
      · have hw : min x.maxWidth rem = rem := min_eq_right (le_of_not_le hmx)
        rw [reintroduce_cons_fits hc, hw]
        right
        simp only [List.map_cons, List.sum_cons]
        have hnn : 0 ≤ (((reintroduce rest (rem - rem)).1.map Prod.fst).map
            (fun s => s.maxWidth)).sum := by
          apply List.sum_nonneg
          intro a ha
          obtain ⟨t, ht, rfl⟩ := List.mem_map.mp ha
          obtain ⟨t', ht', rfl⟩ := List.mem_map.mp ht
          have hg := hrest t'.1 (reintroduce_mem ht')
          linarith [hg.1, hg.2]
        have hxmax : rem < x.maxWidth := not_le.mp hmx
        linarith
    · rw [reintroduce_cons_skip (not_le.mp hc)]
      exact ih rem hrest hrem

theorem currentWidths_slack (cw : ℚ) (schemas : List Schema)
    (hgood : ∀ s ∈ schemas, 0 ≤ s.minWidth ∧ s.minWidth ≤ s.maxWidth)
    (hslack : sumMax (visibleFinal cw schemas) ≤ cw) :
    currentWidths cw schemas
      = (visibleFinal cw schemas).map (fun s => s.maxWidth) := by
  have hadnn : 0 ≤ sumMax ((admittedPairs cw schemas).1.map Prod.fst) := by
    apply List.sum_nonneg
    intro a ha
    obtain ⟨t, ht, rfl⟩ := List.mem_map.mp ha
    obtain ⟨t', ht', rfl⟩ := List.mem_map.mp ht
    have htmem : t'.1 ∈ schemas :=
      mem_hideables ((admittedPairs_sublist cw schemas).subset
        (List.mem_map_of_mem Prod.fst ht'))
    have hg := hgood t'.1 htmem
    linarith [hg.1, hg.2]
  have hcw : currentWidths cw schemas
      = (postShrink cw schemas).1
        ++ (admittedPairs cw schemas).1.map Prod.snd := rfl
  have hvf2 : visibleFinal cw schemas
      = fixedVisible schemas
        ++ (admittedPairs cw schemas).1.map Prod.fst := rfl
  have hsplitvf : sumMax (visibleFinal cw schemas)
      = sumMax (fixedVisible schemas)
        + sumMax ((admittedPairs cw schemas).1.map Prod.fst) := by
    rw [hvf2]
    exact sumMax_append _ _
  have hraw : ((fixedVisible schemas).map (fun s => s.maxWidth)).sum
      = sumMax (fixedVisible schemas) := rfl
  have hrem0 : ¬ (cw
      - ((fixedVisible schemas).map (fun s => s.maxWidth)).sum < 0) := by
    rw [hraw]
    linarith
  have hps : postShrink cw schemas
      = ((fixedVisible schemas).map (fun s => s.maxWidth),
         cw - ((fixedVisible schemas).map (fun s => s.maxWidth)).sum) := by
    unfold postShrink
    rw [if_neg hrem0]
  have hps1 : (postShrink cw schemas).1
      = (fixedVisible schemas).map (fun s => s.maxWidth) := by rw [hps]
  have hps2 : (postShrink cw schemas).2
      = cw - ((fixedVisible schemas).map (fun s => s.maxWidth)).sum := by
    rw [hps]
  by_cases hpos : (postShrink cw schemas).2 > 0
  · have hadm : (admittedPairs cw schemas).1
        = (reintroduce (hideables schemas)
            (cw - ((fixedVisible schemas).map (fun s => s.maxWidth)).sum)).1 := by
      unfold admittedPairs
      rw [if_pos hpos, hps2]
    have hgood' : ∀ h ∈ hideables schemas,
        0 ≤ h.minWidth ∧ h.minWidth ≤ h.maxWidth :=
      fun h hh => hgood h (mem_hideables hh)
    have hrnn : 0 ≤ cw
        - ((fixedVisible schemas).map (fun s => s.maxWidth)).sum := by
      rw [hps2] at hpos
      exact le_of_lt hpos
    rcases reintroduce_dichotomy (hideables schemas) _ hgood' hrnn with
      ⟨hall, -⟩ | hlt
    · rw [hcw, hvf2, hadm, hps1, List.map_append, List.map_map]
      congr 1
      exact List.map_congr_left (fun p hp => hall p hp)
    · exfalso
      have hsum : sumMax ((admittedPairs cw schemas).1.map Prod.fst)
          = ((((reintroduce (hideables schemas)
              (cw - ((fixedVisible schemas).map
                (fun s => s.maxWidth)).sum)).1).map
                  Prod.fst).map (fun s => s.maxWidth)).sum := by
        rw [hadm]
        rfl
      linarith [hsplitvf, hslack, hlt, hraw, hsum]
  · have hadm : (admittedPairs cw schemas).1 = [] := by
      unfold admittedPairs
      rw [if_neg hpos]
    rw [hcw, hvf2, hadm, hps1]
    simp

/-! ### Branch unfolding equations for the final distribution -/

theorem resolverAssignment_fallback {cw : ℚ} {schemas : List Schema}
    (h : sumMin (visibleFinal cw schemas) > cw) :
    resolverAssignment cw schemas
      = (visibleFinal cw schemas,
         (visibleFinal cw schemas).map (fun s => s.minWidth)) := by
  unfold resolverAssignment
  rw [if_pos h]

theorem resolverAssignment_slack {cw : ℚ} {schemas : List Schema}
    (h1 : ¬ sumMin (visibleFinal cw schemas) > cw)
    (h2 : cw ≥ sumMax (visibleFinal cw schemas)) :
    resolverAssignment cw schemas
      = (visibleFinal cw schemas,
         ((visibleFinal cw schemas).zip (currentWidths cw schemas)).map
           (fun p =>
             if p.1.isAllowedToGrowBeyondMaxWidth then
               p.2 + (cw - sumMax (visibleFinal cw schemas))
                   / (growCount (visibleFinal cw schemas) : ℚ)
             else p.2)) := by
  unfold resolverAssignment
  rw [if_neg h1, if_pos h2]

theorem resolverAssignment_constrained {cw : ℚ} {schemas : List Schema}
    (h1 : ¬ sumMin (visibleFinal cw schemas) > cw)
    (h2 : ¬ cw ≥ sumMax (visibleFinal cw schemas)) :
    resolverAssignment cw schemas
      = (visibleFinal cw schemas,
         distribute (visibleFinal cw schemas)
           (cw - sumMin (visibleFinal cw schemas))) := by
  unfold resolverAssignment
  rw [if_neg h1, if_neg h2]

theorem sumMin_cons (s : Schema) (l : List Schema) :
    sumMin (s :: l) = s.minWidth + sumMin l := by
  unfold sumMin
  simp

theorem sum_map_ite_grow (l : List Schema) (c : ℚ) :
    (l.map (fun s => if s.isAllowedToGrowBeyondMaxWidth then c else 0)).sum
      = (growCount l : ℚ) * c := by
  induction l with
  | nil => simp [growCount]
  | cons s rest ih =>
    by_cases h : s.isAllowedToGrowBeyondMaxWidth
    · have hg : growCount (s :: rest) = growCount rest + 1 := by
        simp [growCount, h]
      rw [List.map_cons, List.sum_cons, if_pos h, ih, hg]
      push_cast
      ring
    · have hg : growCount (s :: rest) = growCount rest := by
        simp [growCount, h]
      rw [List.map_cons, List.sum_cons, if_neg h, ih, hg]
      ring

/-! ### The first-come distribution loop: closed form, bounds, sum -/

theorem getD_map_min (l : List Schema) (i : ℕ) (hi : i < l.length) :
    (l.map (fun t => t.minWidth)).getD i 0
      = (l.getD i default).minWidth := by
  induction l generalizing i with
  | nil => simp at hi
  | cons s rest ih =>
    cases i with
    | zero => simp
    | succ j =>
      rw [List.map_cons, List.getD_cons_succ, List.getD_cons_succ]
      exact ih j (by simpa using Nat.succ_lt_succ_iff.mp (by simpa using hi))

theorem gapSum_take_nonneg {l : List Schema}
    (hgap : ∀ s ∈ l, s.minWidth ≤ s.maxWidth) (i : ℕ) :
    0 ≤ ((l.take i).map (fun t => t.maxWidth - t.minWidth)).sum := by
  apply List.sum_nonneg
  intro a ha
  obtain ⟨t, ht, rfl⟩ := List.mem_map.mp ha
  have := hgap t (List.take_subset i l ht)
  linarith

theorem distribute_getD (vs : List Schema) (B : ℚ)
    (hgap : ∀ s ∈ vs, s.minWidth ≤ s.maxWidth) (i : ℕ) (hi : i < vs.length) :
    (distribute vs B).getD i 0
      = (vs.getD i default).minWidth
        + min ((vs.getD i default).maxWidth - (vs.getD i default).minWidth)
            (max (B - ((vs.take i).map
              (fun t => t.maxWidth - t.minWidth)).sum) 0) := by
  induction vs generalizing B i with
  | nil => simp at hi
  | cons s rest ih =>
    have hs := hgap s (List.mem_cons_self s rest)
    have hrest : ∀ t ∈ rest, t.minWidth ≤ t.maxWidth :=
      fun t ht => hgap t (List.mem_cons_of_mem s ht)
    by_cases hB : 0 < B
    · by_cases h2 : s.minWidth < s.maxWidth
      · rw [distribute_cons_pos_lt hB h2]
        cases i with
        | zero =>
          simp [max_eq_left (le_of_lt hB)]
        | succ j =>
          have hj : j < rest.length := by simpa using hi
          rw [List.getD_cons_succ, List.getD_cons_succ,
            List.take_succ_cons, List.map_cons, List.sum_cons,
            ih (B - min (s.maxWidth - s.minWidth) B) hrest j hj]
          have hpre := gapSum_take_nonneg hrest j
          have hmx : max (B - min (s.maxWidth - s.minWidth) B
                - ((rest.take j).map (fun t => t.maxWidth - t.minWidth)).sum) 0
              = max (B - (s.maxWidth - s.minWidth
                + ((rest.take j).map (fun t => t.maxWidth - t.minWidth)).sum))
                  0 := by
            rcases le_total (s.maxWidth - s.minWidth) B with hle | hle
            · rw [min_eq_left hle]
              congr 1
              ring
            · rw [min_eq_right hle]
              rw [max_eq_right (by linarith), max_eq_right (by linarith)]
          rw [hmx]
      · rw [distribute_cons_pos_ge hB h2]
        have hg0 : s.maxWidth - s.minWidth = 0 := by
          have := not_lt.mp h2
          linarith
        cases i with
        | zero =>
          simp [hg0]
        | succ j =>
          have hj : j < rest.length := by simpa using hi
          rw [List.getD_cons_succ, List.getD_cons_succ,
            List.take_succ_cons, List.map_cons, List.sum_cons, hg0, zero_add,
            ih B hrest j hj]
    · rw [distribute_cons_nonpos hB]
      have hpre := gapSum_take_nonneg hgap i
      have hmax0 : max (B - (((s :: rest).take i).map
          (fun t => t.maxWidth - t.minWidth)).sum) 0 = 0 :=
        max_eq_right (by linarith [not_lt.mp hB])
      have hgi : (s :: rest).getD i default ∈ s :: rest := by
        rw [List.getD_eq_getElem _ _ hi]
        exact List.getElem_mem hi
      have hgapnn : 0 ≤ ((s :: rest).getD i default).maxWidth
          - ((s :: rest).getD i default).minWidth := by
        have := hgap _ hgi
        linarith
      rw [hmax0, min_eq_right hgapnn, add_zero, getD_map_min _ i hi]

theorem distribute_bounds (vs : List Schema) (B : ℚ)
    (hgap : ∀ s ∈ vs, s.minWidth ≤ s.maxWidth) :
    ∀ p ∈ vs.zip (distribute vs B),
      p.1.minWidth ≤ p.2 ∧ p.2 ≤ p.1.maxWidth := by
  induction vs generalizing B with
  | nil => intro p hp; simp [distribute] at hp
  | cons s rest ih =>
    intro p hp
    have hs := hgap s (List.mem_cons_self s rest)
    have hrest : ∀ t ∈ rest, t.minWidth ≤ t.maxWidth :=
      fun t ht => hgap t (List.mem_cons_of_mem s ht)
    by_cases hB : 0 < B
    · by_cases h2 : s.minWidth < s.maxWidth
      · rw [distribute_cons_pos_lt hB h2, List.zip_cons_cons] at hp
        rcases List.mem_cons.mp hp with hp | hp
        · rw [hp]
          refine ⟨?_, ?_⟩
          · show s.minWidth ≤ s.minWidth + min (s.maxWidth - s.minWidth) B
            have h0 : 0 ≤ min (s.maxWidth - s.minWidth) B :=
              le_min (by linarith) (le_of_lt hB)
            linarith
          · show s.minWidth + min (s.maxWidth - s.minWidth) B ≤ s.maxWidth
            have h1 : min (s.maxWidth - s.minWidth) B
                ≤ s.maxWidth - s.minWidth := min_le_left _ _
            linarith
        · exact ih _ hrest p hp
      · rw [distribute_cons_pos_ge hB h2, List.zip_cons_cons] at hp
        rcases List.mem_cons.mp hp with hp | hp
        · rw [hp]
          exact ⟨le_refl _, hs⟩
        · exact ih _ hrest p hp
    · rw [distribute_cons_nonpos hB] at hp
      have hzip : (s :: rest).zip ((s :: rest).map (fun t => t.minWidth))
          = (s :: rest).map (fun t => (t, t.minWidth)) := by
        have h := List.zip_map' id (fun t => t.minWidth) (s :: rest)
        simpa using h
      rw [hzip] at hp
      obtain ⟨t, ht, rfl⟩ := List.mem_map.mp hp
      exact ⟨le_refl _, hgap t ht⟩

theorem distribute_sum_le (vs : List Schema) (B : ℚ)
    (hgap : ∀ s ∈ vs, s.minWidth ≤ s.maxWidth) :
    (distribute vs B).sum ≤ sumMin vs + max B 0 := by
  induction vs generalizing B with
  | nil =>
    simp [distribute, sumMin]
  | cons s rest ih =>
    have hs := hgap s (List.mem_cons_self s rest)
    have hrest : ∀ t ∈ rest, t.minWidth ≤ t.maxWidth :=
      fun t ht => hgap t (List.mem_cons_of_mem s ht)
    by_cases hB : 0 < B
    · by_cases h2 : s.minWidth < s.maxWidth
      · rw [distribute_cons_pos_lt hB h2, List.sum_cons, sumMin_cons]
        have hih := ih (B - min (s.maxWidth - s.minWidth) B) hrest
        have hadd1 : min (s.maxWidth - s.minWidth) B ≤ B := min_le_right _ _
        have hadd0 : 0 ≤ min (s.maxWidth - s.minWidth) B :=
          le_min (by linarith) (le_of_lt hB)
        have hm1 : max (B - min (s.maxWidth - s.minWidth) B) 0
            = B - min (s.maxWidth - s.minWidth) B :=
          max_eq_left (by linarith)
        rw [hm1] at hih
        rw [max_eq_left (le_of_lt hB)]
        linarith
      · rw [distribute_cons_pos_ge hB h2, List.sum_cons, sumMin_cons]
        have hih := ih B hrest
        linarith
    · rw [distribute_cons_nonpos hB]
      have hsum : ((s :: rest).map (fun t => t.minWidth)).sum
          = sumMin (s :: rest) := rfl
      rw [hsum]
      have h0 : (0 : ℚ) ≤ max B 0 := le_max_right B 0
      linarith

/-! ### The consecutive-priorities check subsumes duplicate detection -/

theorem checkConsecutive_cases (l : List ℚ) :
    checkConsecutive l = .ok ()
      ∨ checkConsecutive l = .error consecutiveMsg := by
  induction l with
  | nil => exact Or.inl rfl
  | cons a rest ih =>
    cases rest with
    | nil => exact Or.inl rfl
    | cons b rest2 =>
      by_cases h : a + 1 ≠ b
      · right
        simp [checkConsecutive, h]
      · rw [show checkConsecutive (a :: b :: rest2)
            = checkConsecutive (b :: rest2) from by simp [checkConsecutive, h]]
        exact ih

theorem checkConsecutive_ok_chain {l : List ℚ}
    (h : checkConsecutive l = .ok ()) :
    l.Chain' (fun a b => a + 1 = b) := by
  induction l with
  | nil => simp
  | cons a rest ih =>
    cases rest with
    | nil => simp
    | cons b rest2 =>
      by_cases hab : a + 1 ≠ b
      · rw [show checkConsecutive (a :: b :: rest2) = .error consecutiveMsg
            from by simp [checkConsecutive, hab]] at h
        exact absurd h (by simp)
      · have hab' : a + 1 = b := not_not.mp hab
        rw [show checkConsecutive (a :: b :: rest2)
            = checkConsecutive (b :: rest2)
          from by simp [checkConsecutive, hab]] at h
        exact List.chain'_cons.mpr ⟨hab', ih h⟩

theorem chain_succ_nodup {l : List ℚ}
    (h : l.Chain' (fun a b => a + 1 = b)) : l.Nodup := by
  have hlt : l.Chain' (· < ·) :=
    h.imp (fun a b hab => by rw [← hab]; linarith)
  have hp : l.Pairwise (· < ·) := List.chain'_iff_pairwise.mp hlt
  exact List.Pairwise.imp (fun hab => ne_of_lt hab) hp

theorem dup_priorities_error (cw : ℚ) (schemas : List Schema)
    (hdup : ¬ (schemas.map (fun s => s.shrinkPriority)).Nodup) :
    determineColumnWidths cw schemas = .error consecutiveMsg := by
  have hne : schemas ≠ [] := by
    intro h
    subst h
    simp at hdup
  have hperm := List.perm_insertionSort (fun a b : ℚ => a ≤ b)
      (schemas.map (fun s => s.shrinkPriority))
  have hdup2 : ¬ (List.insertionSort (fun a b : ℚ => a ≤ b)
      (schemas.map (fun s => s.shrinkPriority))).Nodup :=
    fun hnd => hdup (hperm.nodup_iff.mp hnd)
  have hcheck : checkConsecutive (List.insertionSort (fun a b : ℚ => a ≤ b)
      (schemas.map (fun s => s.shrinkPriority))) = .error consecutiveMsg := by
    rcases checkConsecutive_cases (List.insertionSort (fun a b : ℚ => a ≤ b)
        (schemas.map (fun s => s.shrinkPriority))) with hok | herr
    · exact absurd (chain_succ_nodup (checkConsecutive_ok_chain hok)) hdup2
    · exact herr
  have hdebug : determineColumnWidthsDebugs cw schemas
      = .error consecutiveMsg := by
    unfold determineColumnWidthsDebugs
    rw [hcheck]
    rfl
  unfold determineColumnWidths
  rw [if_neg (by simpa using hne),
    show (if DEBUG then determineColumnWidthsDebugs cw schemas
        else Except.ok ()) = determineColumnWidthsDebugs cw schemas
      from if_pos rfl,
    hdebug]

/-! ### Reading entries back out of the width map -/

theorem widthMap_keys (cw : ℚ) (schemas : List Schema) :
    (resolverWidthMap cw schemas).map Prod.fst
      = (((resolverAssignment cw schemas).1).map (fun s => s.key)).reverse := by
  unfold resolverWidthMap widthMapOf
  rw [List.map_reverse, List.map_map]
  congr 1
  have hlen : (resolverAssignment cw schemas).1.length
      ≤ (resolverAssignment cw schemas).2.length := by
    rw [resolverAssignment_length, resolverAssignment_fst]
  calc ((resolverAssignment cw schemas).1.zip
        (resolverAssignment cw schemas).2).map
          (Prod.fst ∘ fun p : Schema × ℚ => (p.1.key, p.2))
      = (((resolverAssignment cw schemas).1.zip
          (resolverAssignment cw schemas).2).map Prod.fst).map
            (fun s => s.key) := by
        rw [List.map_map]
        rfl
    _ = ((resolverAssignment cw schemas).1).map (fun s => s.key) := by
        rw [List.map_fst_zip _ _ hlen]

theorem lookupD_assigned {cw : ℚ} {schemas : List Schema}
    (hnd : (schemas.map (fun s => s.key)).Nodup) {s : Schema} {w : ℚ}
    (hm : (s, w) ∈ (resolverAssignment cw schemas).1.zip
        (resolverAssignment cw schemas).2) :
    lookupD (resolverWidthMap cw schemas) s.key = w := by
  have hk : ((resolverWidthMap cw schemas).map Prod.fst).Nodup := by
    rw [widthMap_keys, List.nodup_reverse, resolverAssignment_fst]
    exact nodup_keys_visibleFinal hnd
  have hmem : (s.key, w) ∈ resolverWidthMap cw schemas := by
    unfold resolverWidthMap widthMapOf
    rw [List.mem_reverse]
    exact List.mem_map.mpr ⟨(s, w), hm, rfl⟩
  unfold lookupD
  rw [lookup_eq_some_of_mem hk hmem]
  rfl

theorem lookupD_omitted {cw : ℚ} {schemas : List Schema}
    (hnd : (schemas.map (fun s => s.key)).Nodup) {s : Schema}
    (hs : s ∈ schemas) (hnv : s ∉ visibleFinal cw schemas) :
    lookupD (resolverWidthMap cw schemas) s.key = 0 := by
  have hkeys : s.key ∉ (resolverWidthMap cw schemas).map Prod.fst := by
    rw [widthMap_keys, resolverAssignment_fst, List.mem_reverse]
    intro hmem
    obtain ⟨t, ht, hkey⟩ := List.mem_map.mp hmem
    have hts : t = s :=
      List.inj_on_of_nodup_map hnd (mem_visibleFinal ht) hs hkey
    exact hnv (hts ▸ ht)
  unfold lookupD
  rw [lookup_eq_none_of_not_mem hkeys]
  rfl

theorem zip_core (cw : ℚ) (schemas : List Schema) :
    schemas.zip (determineColumnWidthsCore cw schemas)
      = schemas.map
          (fun s => (s, lookupD (resolverWidthMap cw schemas) s.key)) := by
  have h := List.zip_map' id
      (fun s => lookupD (resolverWidthMap cw schemas) s.key) schemas
  simpa [determineColumnWidthsCore] using h

/-! ### The slack branch formula -/

theorem slack_widths_formula (cw : ℚ) (schemas : List Schema)
    (hgood : ∀ s ∈ schemas, 0 ≤ s.minWidth ∧ s.minWidth ≤ s.maxWidth)
    (h2 : sumMax (visibleFinal cw schemas) ≤ cw) :
    (resolverAssignment cw schemas).2
      = (visibleFinal cw schemas).map (fun s =>
          s.maxWidth + (if s.isAllowedToGrowBeyondMaxWidth then
            (cw - sumMax (visibleFinal cw schemas))
              / (growCount (visibleFinal cw schemas) : ℚ) else 0)) := by
  have h1 : ¬ sumMin (visibleFinal cw schemas) > cw := by
    have hminmax : sumMin (visibleFinal cw schemas)
        ≤ sumMax (visibleFinal cw schemas) :=
      sumMin_le_sumMax (fun s hs => (hgood s (mem_visibleFinal hs)).2)
    linarith
  have ha2 : (resolverAssignment cw schemas).2
      = ((visibleFinal cw schemas).zip (currentWidths cw schemas)).map
          (fun p =>
            if p.1.isAllowedToGrowBeyondMaxWidth then
              p.2 + (cw - sumMax (visibleFinal cw schemas))
                  / (growCount (visibleFinal cw schemas) : ℚ)
            else p.2) := by
    rw [resolverAssignment_slack h1 h2]
  have hzip : (visibleFinal cw schemas).zip
      ((visibleFinal cw schemas).map (fun s => s.maxWidth))
      = (visibleFinal cw schemas).map (fun s => (s, s.maxWidth)) := by
    have h := List.zip_map' id (fun s => s.maxWidth) (visibleFinal cw schemas)
    simpa using h
  rw [ha2, currentWidths_slack cw schemas hgood h2, hzip, List.map_map]
  apply List.map_congr_left
  intro s hs
  by_cases hg : s.isAllowedToGrowBeyondMaxWidth
  · simp [hg]
  · simp [hg]

/-! ### Step 5 fallback is unreachable after successful validation -/

theorem fallback_unreachable {cw : ℚ} {schemas : List Schema} {ws : List ℚ}
    (hmin0 : ∀ s ∈ schemas, 0 ≤ s.minWidth) (hne : schemas ≠ [])
    (hok : determineColumnWidths cw schemas = .ok ws) :
    sumMin (visibleFinal cw schemas) ≤ cw := by
  have hd := determineColumnWidths_ok_debugs hne hok
  have hfacts := debugs_ok hd
  exact le_trans (sumMin_visibleFinal_le cw schemas hmin0) hfacts.1

/-! ### The reintroduction pass, stated relationally from the spec -/

/-- Step 4 of the spec, stated as a relation following its wording:
walking the hideable items in order, an item whose `minWidth` is at most
the current slack is admitted with width `min(maxWidth, slack)`, which
is deducted from the slack; an item that does not fit at its turn is
passed over and the slack is unchanged. -/
inductive ReintroSpec : List Schema → ℚ → List (Schema × ℚ) → ℚ → Prop
  | nil (rem : ℚ) : ReintroSpec [] rem [] rem
  | fits {h : Schema} {rest : List Schema} {rem rem2 : ℚ}
      {out : List (Schema × ℚ)} :
      h.minWidth ≤ rem →
      ReintroSpec rest (rem - min h.maxWidth rem) out rem2 →
      ReintroSpec (h :: rest) rem ((h, min h.maxWidth rem) :: out) rem2
  | skip {h : Schema} {rest : List Schema} {rem rem2 : ℚ}
      {out : List (Schema × ℚ)} :
      rem < h.minWidth →
      ReintroSpec rest rem out rem2 →
      ReintroSpec (h :: rest) rem out rem2

theorem reintroduce_spec (hs : List Schema) (rem : ℚ) :
    ReintroSpec hs rem (reintroduce hs rem).1 (reintroduce hs rem).2 := by
  induction hs generalizing rem with
  | nil => exact ReintroSpec.nil rem
  | cons x rest ih =>
    by_cases hc : x.minWidth ≤ rem
    · rw [reintroduce_cons_fits hc]
      exact ReintroSpec.fits hc (ih _)
    · rw [reintroduce_cons_skip (not_le.mp hc)]
      exact ReintroSpec.skip (not_le.mp hc) (ih rem)

/-! ### Pointwise bounds on the computed widths -/

theorem shrinkBack_bounds (l : List (Schema × ℚ)) (rem : ℚ)
    (hw : ∀ p ∈ l, p.1.minWidth ≤ p.2 ∧ p.2 ≤ p.1.maxWidth) :
    ∀ q ∈ (l.map Prod.fst).zip (shrinkBack l rem).1,
      q.1.minWidth ≤ q.2 ∧ q.2 ≤ q.1.maxWidth := by
  induction l with
  | nil => intro q hq; simp [shrinkBack] at hq
  | cons p rest ih =>
    obtain ⟨s, w⟩ := p
    have hsw := hw (s, w) (List.mem_cons_self _ _)
    have hrest : ∀ p ∈ rest, p.1.minWidth ≤ p.2 ∧ p.2 ≤ p.1.maxWidth :=
      fun p hp => hw p (List.mem_cons_of_mem _ hp)
    intro q hq
    by_cases hrem : (shrinkBack rest rem).2 < 0
    · rw [show shrinkBack ((s, w) :: rest) rem
          = ((w - min (-(shrinkBack rest rem).2) (w - s.minWidth))
              :: (shrinkBack rest rem).1,
             (shrinkBack rest rem).2
               + min (-(shrinkBack rest rem).2) (w - s.minWidth))
        from by simp [shrinkBack, hrem]] at hq
      rw [List.map_cons, List.zip_cons_cons] at hq
      rcases List.mem_cons.mp hq with h | h
      · rw [h]
        refine ⟨?_, ?_⟩
        · show s.minWidth
            ≤ w - min (-(shrinkBack rest rem).2) (w - s.minWidth)
          have h1 : min (-(shrinkBack rest rem).2) (w - s.minWidth)
              ≤ w - s.minWidth := min_le_right _ _
          linarith
        · show w - min (-(shrinkBack rest rem).2) (w - s.minWidth)
            ≤ s.maxWidth
          have h0 : 0 ≤ min (-(shrinkBack rest rem).2) (w - s.minWidth) :=
            le_min (by linarith) (by linarith [hsw.1])
          linarith [hsw.2]
      · exact ih hrest q h
    · rw [show shrinkBack ((s, w) :: rest) rem
          = (w :: (shrinkBack rest rem).1, (shrinkBack rest rem).2)
        from by simp [shrinkBack, hrem]] at hq
      rw [List.map_cons, List.zip_cons_cons] at hq
      rcases List.mem_cons.mp hq with h | h
      · rw [h]
        exact hsw
      · exact ih hrest q h

theorem reintroduce_width_bounds (hs : List Schema) (rem : ℚ)
    (hminmax : ∀ h ∈ hs, h.minWidth ≤ h.maxWidth) :
    ∀ p ∈ (reintroduce hs rem).1,
      p.1.minWidth ≤ p.2 ∧ p.2 ≤ p.1.maxWidth := by
  induction hs generalizing rem with
  | nil => intro p hp; simp [reintroduce] at hp
  | cons x rest ih =>
    have hx := hminmax x (List.mem_cons_self x rest)
    have hrest : ∀ h ∈ rest, h.minWidth ≤ h.maxWidth :=
      fun h hh => hminmax h (List.mem_cons_of_mem x hh)
    intro p hp
    by_cases hc : x.minWidth ≤ rem
    · rw [reintroduce_cons_fits hc] at hp
      rcases List.mem_cons.mp hp with h | h
      · rw [h]
        exact ⟨le_min hx hc, min_le_left _ _⟩
      · exact ih _ hrest p h
    · rw [reintroduce_cons_skip (not_le.mp hc)] at hp
      exact ih rem hrest p hp

theorem currentWidths_bounds (cw : ℚ) (schemas : List Schema)
    (hminmax : ∀ s ∈ schemas, s.minWidth ≤ s.maxWidth) :
    ∀ q ∈ (visibleFinal cw schemas).zip (currentWidths cw schemas),
      q.1.minWidth ≤ q.2 ∧ q.2 ≤ q.1.maxWidth := by
  intro q hq
  have hvf2 : visibleFinal cw schemas
      = fixedVisible schemas
        ++ (admittedPairs cw schemas).1.map Prod.fst := rfl
  have hcw2 : currentWidths cw schemas
      = (postShrink cw schemas).1
        ++ (admittedPairs cw schemas).1.map Prod.snd := rfl
  rw [hvf2, hcw2,
    List.zip_append (postShrink_length cw schemas).symm] at hq
  rcases List.mem_append.mp hq with hq | hq
  · -- the fixed-visible part
    have hmmfv : ∀ p ∈ (fixedVisible schemas).zip
        ((fixedVisible schemas).map (fun s => s.maxWidth)),
        p.1.minWidth ≤ p.2 ∧ p.2 ≤ p.1.maxWidth := by
      intro p hp
      have hzip : (fixedVisible schemas).zip
          ((fixedVisible schemas).map (fun s => s.maxWidth))
          = (fixedVisible schemas).map (fun s => (s, s.maxWidth)) := by
        have h := List.zip_map' id (fun s => s.maxWidth) (fixedVisible schemas)
        simpa using h
      rw [hzip] at hp
      obtain ⟨t, ht, rfl⟩ := List.mem_map.mp hp
      exact ⟨hminmax t (mem_fixedVisible ht), le_refl _⟩
    unfold postShrink at hq
    by_cases h : cw - ((fixedVisible schemas).map (fun s => s.maxWidth)).sum < 0
    · rw [if_pos h] at hq
      have hfst : ((fixedVisible schemas).zip
          ((fixedVisible schemas).map (fun s => s.maxWidth))).map Prod.fst
          = fixedVisible schemas :=
        List.map_fst_zip _ _ (by rw [List.length_map])
      have := shrinkBack_bounds
        ((fixedVisible schemas).zip
          ((fixedVisible schemas).map (fun s => s.maxWidth)))
        (cw - ((fixedVisible schemas).map (fun s => s.maxWidth)).sum)
        hmmfv q
      rw [hfst] at this
      exact this hq
    · rw [if_neg h] at hq
      exact hmmfv q hq
  · -- the admitted part
    have hzip : ((admittedPairs cw schemas).1.map Prod.fst).zip
        ((admittedPairs cw schemas).1.map Prod.snd)
        = (admittedPairs cw schemas).1.map (fun p => (p.1, p.2)) :=
      List.zip_map' Prod.fst Prod.snd _
    rw [hzip] at hq
    obtain ⟨t, ht, rfl⟩ := List.mem_map.mp hq
    have hmm : ∀ h ∈ hideables schemas, h.minWidth ≤ h.maxWidth :=
      fun h hh => hminmax h (mem_hideables hh)
    unfold admittedPairs at ht
    by_cases h : (postShrink cw schemas).2 > 0
    · rw [if_pos h] at ht
      exact reintroduce_width_bounds (hideables schemas) _ hmm t ht
    · rw [if_neg h] at ht
      simp at ht

theorem mem_zip_of_mem_left {α β : Type} {l : List α} {l' : List β} {a : α}
    (ha : a ∈ l) (hlen : l.length ≤ l'.length) :
    ∃ b, (a, b) ∈ l.zip l' := by
  induction l generalizing l' with
  | nil => simp at ha
  | cons x rest ih =>
    cases l' with
    | nil => simp at hlen
    | cons y rest' =>
      rcases List.mem_cons.mp ha with h | h
      · exact ⟨y, by rw [h, List.zip_cons_cons]; exact List.mem_cons_self _ _⟩
      · obtain ⟨b, hb⟩ := ih h (by simpa using hlen)
        exact ⟨b, by rw [List.zip_cons_cons]; exact List.mem_cons_of_mem _ hb⟩

theorem mem_zip_map_zip {l : List Schema} {l' : List ℚ}
    {f : Schema × ℚ → ℚ} {s : Schema} {w : ℚ}
    (hm : (s, w) ∈ l.zip ((l.zip l').map f)) :
    ∃ c, (s, c) ∈ l.zip l' ∧ w = f (s, c) := by
  induction l generalizing l' with
  | nil => simp at hm
  | cons x rest ih =>
    cases l' with
    | nil => simp at hm
    | cons y rest' =>
      rw [List.zip_cons_cons, List.map_cons, List.zip_cons_cons] at hm
      rcases List.mem_cons.mp hm with h | h
      · rw [Prod.mk.injEq] at h
        obtain ⟨rfl, rfl⟩ := h
        exact ⟨y, List.mem_cons_self _ _, rfl⟩
      · obtain ⟨c, hc1, hc2⟩ := ih h
        exact ⟨c, List.mem_cons_of_mem _ hc1, hc2⟩

theorem assignment_width_ge_min {cw : ℚ} {schemas : List Schema}
    (hminmax : ∀ s ∈ schemas, s.minWidth ≤ s.maxWidth) {s : Schema} {w : ℚ}
    (hm : (s, w) ∈ (visibleFinal cw schemas).zip
        (resolverAssignment cw schemas).2) :
    s.minWidth ≤ w := by
  by_cases h1 : sumMin (visibleFinal cw schemas) > cw
  · have ha2 : (resolverAssignment cw schemas).2
        = (visibleFinal cw schemas).map (fun t => t.minWidth) := by
      rw [resolverAssignment_fallback h1]
    rw [ha2] at hm
    have hzip : (visibleFinal cw schemas).zip
        ((visibleFinal cw schemas).map (fun t => t.minWidth))
        = (visibleFinal cw schemas).map (fun t => (t, t.minWidth)) := by
      have h := List.zip_map' id (fun t => t.minWidth) (visibleFinal cw schemas)
      simpa using h
    rw [hzip] at hm
    obtain ⟨t, ht, hts⟩ := List.mem_map.mp hm
    rw [Prod.mk.injEq] at hts
    obtain ⟨rfl, rfl⟩ := hts
    exact le_refl _
  · by_cases h2 : cw ≥ sumMax (visibleFinal cw schemas)
    · have ha2 : (resolverAssignment cw schemas).2
          = ((visibleFinal cw schemas).zip (currentWidths cw schemas)).map
              (fun p =>
                if p.1.isAllowedToGrowBeyondMaxWidth then
                  p.2 + (cw - sumMax (visibleFinal cw schemas))
                      / (growCount (visibleFinal cw schemas) : ℚ)
                else p.2) := by
        rw [resolverAssignment_slack h1 h2]
      rw [ha2] at hm
      obtain ⟨c, hc, hw⟩ := mem_zip_map_zip hm
      have hb := currentWidths_bounds cw schemas hminmax (s, c) hc
      have haddw : 0 ≤ (cw - sumMax (visibleFinal cw schemas))
          / (growCount (visibleFinal cw schemas) : ℚ) :=
        div_nonneg (by linarith) (Nat.cast_nonneg _)
      by_cases hg : s.isAllowedToGrowBeyondMaxWidth
      · rw [hw, if_pos hg]
        linarith [hb.1]
      · rw [hw, if_neg hg]
        exact hb.1
    · have ha2 : (resolverAssignment cw schemas).2
          = distribute (visibleFinal cw schemas)
              (cw - sumMin (visibleFinal cw schemas)) := by
        rw [resolverAssignment_constrained h1 h2]
      rw [ha2] at hm
      exact (distribute_bounds (visibleFinal cw schemas) _
        (fun t ht => hminmax t (mem_visibleFinal ht)) (s, w) hm).1

theorem assignment_width_le_max {cw : ℚ} {schemas : List Schema}
    (hminmax : ∀ s ∈ schemas, s.minWidth ≤ s.maxWidth) {s : Schema} {w : ℚ}
    (hgrow : ¬ s.isAllowedToGrowBeyondMaxWidth)
    (hm : (s, w) ∈ (visibleFinal cw schemas).zip
        (resolverAssignment cw schemas).2) :
    w ≤ s.maxWidth := by
  by_cases h1 : sumMin (visibleFinal cw schemas) > cw
  · have ha2 : (resolverAssignment cw schemas).2
        = (visibleFinal cw schemas).map (fun t => t.minWidth) := by
      rw [resolverAssignment_fallback h1]
    rw [ha2] at hm
    have hzip : (visibleFinal cw schemas).zip
        ((visibleFinal cw schemas).map (fun t => t.minWidth))
        = (visibleFinal cw schemas).map (fun t => (t, t.minWidth)) := by
      have h := List.zip_map' id (fun t => t.minWidth) (visibleFinal cw schemas)
      simpa using h
    rw [hzip] at hm
    obtain ⟨t, ht, hts⟩ := List.mem_map.mp hm
    rw [Prod.mk.injEq] at hts
    obtain ⟨rfl, rfl⟩ := hts
    exact hminmax t (mem_visibleFinal ht)
  · by_cases h2 : cw ≥ sumMax (visibleFinal cw schemas)
    · have ha2 : (resolverAssignment cw schemas).2
          = ((visibleFinal cw schemas).zip (currentWidths cw schemas)).map
              (fun p =>
                if p.1.isAllowedToGrowBeyondMaxWidth then
                  p.2 + (cw - sumMax (visibleFinal cw schemas))
                      / (growCount (visibleFinal cw schemas) : ℚ)
                else p.2) := by
        rw [resolverAssignment_slack h1 h2]
      rw [ha2] at hm
      obtain ⟨c, hc, hw⟩ := mem_zip_map_zip hm
      have hb := currentWidths_bounds cw schemas hminmax (s, c) hc
      rw [hw, if_neg hgrow]
      exact hb.2
    · have ha2 : (resolverAssignment cw schemas).2
          = distribute (visibleFinal cw schemas)
              (cw - sumMin (visibleFinal cw schemas)) := by
        rw [resolverAssignment_constrained h1 h2]
      rw [ha2] at hm
      exact (distribute_bounds (visibleFinal cw schemas) _
        (fun t ht => hminmax t (mem_visibleFinal ht)) (s, w) hm).2

theorem core_entry (cw : ℚ) {schemas : List Schema}
    (hnd : (schemas.map (fun s => s.key)).Nodup) {s : Schema}
    (hs : s ∈ schemas) :
    (s ∉ visibleFinal cw schemas
      ∧ lookupD (resolverWidthMap cw schemas) s.key = 0)
    ∨ ∃ w, (s, w) ∈ (visibleFinal cw schemas).zip
          (resolverAssignment cw schemas).2
        ∧ lookupD (resolverWidthMap cw schemas) s.key = w := by
  by_cases hv : s ∈ visibleFinal cw schemas
  · right
    have hlen : (visibleFinal cw schemas).length
        ≤ (resolverAssignment cw schemas).2.length :=
      le_of_eq (resolverAssignment_length cw schemas).symm
    obtain ⟨w, hw⟩ := mem_zip_of_mem_left hv hlen
    refine ⟨w, hw, ?_⟩
    apply lookupD_assigned hnd
    rw [show (resolverAssignment cw schemas).1.zip
        (resolverAssignment cw schemas).2
        = (visibleFinal cw schemas).zip (resolverAssignment cw schemas).2
      from by rw [resolverAssignment_fst]]
    exact hw
  · exact Or.inl ⟨hv, lookupD_omitted hnd hs hv⟩

/-! ### Summing the final widths -/

theorem sum_filter_ne_zero (l : List ℚ) :
    (l.filter (fun w => w ≠ 0)).sum = l.sum := by
  induction l with
  | nil => rfl
  | cons x rest ih =>
    rw [List.filter_cons]
    by_cases h : x = 0
    · rw [if_neg (by simp [h]), ih, List.sum_cons, h, zero_add]
    · rw [if_pos (by simp [h]), List.sum_cons, List.sum_cons, ih]

theorem core_sum_eq (cw : ℚ) (schemas : List Schema)
    (hnd : (schemas.map (fun s => s.key)).Nodup) :
    (determineColumnWidthsCore cw schemas).sum
      = ((resolverAssignment cw schemas).2).sum := by
  have hk : ((resolverWidthMap cw schemas).map Prod.fst).Nodup := by
    rw [widthMap_keys, List.nodup_reverse, resolverAssignment_fst]
    exact nodup_keys_visibleFinal hnd
  have hsub : ∀ k ∈ (resolverWidthMap cw schemas).map Prod.fst,
      k ∈ schemas.map (fun s => s.key) := by
    intro k hkm
    rw [widthMap_keys, List.mem_reverse, resolverAssignment_fst] at hkm
    obtain ⟨t, ht, rfl⟩ := List.mem_map.mp hkm
    exact List.mem_map_of_mem _ (mem_visibleFinal ht)
  have h1 : (determineColumnWidthsCore cw schemas).sum
      = ((resolverWidthMap cw schemas).map Prod.snd).sum := by
    unfold determineColumnWidthsCore
    exact sum_lookupD schemas _ hnd hk hsub
  have hlen : ((resolverAssignment cw schemas).2).length
      ≤ ((resolverAssignment cw schemas).1).length := by
    rw [resolverAssignment_length, resolverAssignment_fst]
  have h2 : (resolverWidthMap cw schemas).map Prod.snd
      = (((resolverAssignment cw schemas).1.zip
          (resolverAssignment cw schemas).2).map Prod.snd).reverse := by
    unfold resolverWidthMap widthMapOf
    rw [List.map_reverse, List.map_map]
    rfl
  have h3 : ((resolverAssignment cw schemas).1.zip
      (resolverAssignment cw schemas).2).map Prod.snd
      = (resolverAssignment cw schemas).2 :=
    List.map_snd_zip _ _ hlen
  rw [h1, h2, List.sum_reverse, h3]

theorem assignment_sum_le {cw : ℚ} {schemas : List Schema}
    (hgood : ∀ s ∈ schemas, 0 ≤ s.minWidth ∧ s.minWidth ≤ s.maxWidth)
    (hfb : sumMin (visibleFinal cw schemas) ≤ cw) :
    ((resolverAssignment cw schemas).2).sum ≤ cw := by
  have h1 : ¬ sumMin (visibleFinal cw schemas) > cw := not_lt.mpr hfb
  by_cases h2 : cw ≥ sumMax (visibleFinal cw schemas)
  · rw [slack_widths_formula cw schemas hgood h2,
      sum_map_add (visibleFinal cw schemas) (fun s => s.maxWidth)
        (fun s => if s.isAllowedToGrowBeyondMaxWidth then
          (cw - sumMax (visibleFinal cw schemas))
            / (growCount (visibleFinal cw schemas) : ℚ) else 0),
      sum_map_ite_grow]
    have hmaxsum : ((visibleFinal cw schemas).map (fun s => s.maxWidth)).sum
        = sumMax (visibleFinal cw schemas) := rfl
    rw [hmaxsum]
    by_cases hn : growCount (visibleFinal cw schemas) = 0
    · rw [hn]
      simp
      linarith
    · have hnq : ((growCount (visibleFinal cw schemas) : ℚ)) ≠ 0 :=
        Nat.cast_ne_zero.mpr hn
      rw [mul_div_cancel₀ _ hnq]
      linarith
  · have ha2 : (resolverAssignment cw schemas).2
        = distribute (visibleFinal cw schemas)
            (cw - sumMin (visibleFinal cw schemas)) := by
      rw [resolverAssignment_constrained h1 h2]
    rw [ha2]
    have hgap : ∀ s ∈ visibleFinal cw schemas, s.minWidth ≤ s.maxWidth :=
      fun s hs => (hgood s (mem_visibleFinal hs)).2
    have hd := distribute_sum_le (visibleFinal cw schemas)
      (cw - sumMin (visibleFinal cw schemas)) hgap
    rw [max_eq_left (by linarith)] at hd
    linarith

/-! ### Further concrete inputs used by the claims -/

/-- Schema `{key:single, min:50, max:100, pr:1}` from the test file. -/
def schemaSingle : Schema := ⟨"single", 50, 100, 1, false, false⟩

/-- Schema `{key:b, min:100, max:200, pr:2, grow:true}`. -/
def schemaBGrow : Schema := ⟨"b", 100, 200, 2, false, true⟩

/-- Schema `{key:a, min:10, max:200, pr:1}`. -/
def schemaA2 : Schema := ⟨"a", 10, 200, 1, false, false⟩

/-- Schema `{key:b, min:100, max:150, pr:2, hide:true}`: does not fit
when the slack after the fixed items is zero. -/
def schemaBHide2 : Schema := ⟨"b", 100, 150, 2, true, false⟩

/-- Schema `{key:b, min:20, max:100, pr:2, hide:true}`: admitted with a
clipped width when the slack is 50. -/
def schemaBHide3 : Schema := ⟨"b", 20, 100, 2, true, false⟩

/-- A hideable schema with negative widths (`min:-5 ≤ max:-3`), which
the validator accepts. -/
def schemaNeg : Schema := ⟨"a", -5, -3, 1, true, false⟩

/-- Schema `{key:a, min:10, max:20, pr:1}`. -/
def schemaP1a : Schema := ⟨"a", 10, 20, 1, false, false⟩

/-- Schema `{key:b, min:10, max:20, pr:1}`: same priority as
`schemaP1a`. -/
def schemaP1b : Schema := ⟨"b", 10, 20, 1, false, false⟩

/-! ### The claims -/

/-- Claim C1 (code bug): the claim says the resolver never raises on
overflow and that `determineColumnWidths(100, [a{50,100,1}, b{100,200,2}])`
returns the Step 5 fallback `[50, 100]` — exactly what the repository's
own test asserts.  But `DEBUG` is hardcoded `true`, so the entry point
always runs the validator, which throws the minWidth-sum overflow error
on that very input; only the resolver body after validation produces
the documented fallback `[50, 100]`. -/
theorem claim_C1 :
    determineColumnWidths 100 [schemaA, schemaB] = .error minWidthSumMsg
      ∧ determineColumnWidthsCore 100 [schemaA, schemaB] = [50, 100] :=
  ⟨by with_unfolding_all decide, by with_unfolding_all decide⟩

/-- Claim C2: for a nonnegative `contentWidth` and schemas with
nonnegative `minWidth`s summing to at most `contentWidth`, the non-zero
entries of any successfully returned width list sum to at most
`contentWidth`. -/
theorem claim_C2 (cw : ℚ) (schemas : List Schema) (ws : List ℚ)
    (hcw : 0 ≤ cw) (hmin0 : ∀ s ∈ schemas, 0 ≤ s.minWidth)
    (hsum : (schemas.map (fun s => s.minWidth)).sum ≤ cw)
    (hok : determineColumnWidths cw schemas = .ok ws) :
    (ws.filter (fun w => w ≠ 0)).sum ≤ cw := by
  have hws := determineColumnWidths_ok_core hok
  by_cases hne : schemas = []
  · subst hne
    rw [hws]
    simpa [determineColumnWidthsCore] using hcw
  · have hd := determineColumnWidths_ok_debugs hne hok
    have hfacts := debugs_ok hd
    have hgood : ∀ s ∈ schemas, 0 ≤ s.minWidth ∧ s.minWidth ≤ s.maxWidth :=
      fun s hs => ⟨hmin0 s hs, hfacts.2.1 s hs⟩
    have hfb : sumMin (visibleFinal cw schemas) ≤ cw :=
      le_trans (sumMin_visibleFinal_le cw schemas hmin0) hfacts.1
    rw [hws, sum_filter_ne_zero, core_sum_eq cw schemas hfacts.2.2.2]
    exact assignment_sum_le hgood hfb

/-- Claim C2 witness at `(500, [a{50,100,1}, b{100,200,2}]) = [100, 200]`. -/
theorem claim_C2_witness :
    0 ≤ (500 : ℚ)
      ∧ (∀ s ∈ [schemaA, schemaB], 0 ≤ s.minWidth)
      ∧ (([schemaA, schemaB].map (fun s => s.minWidth)).sum ≤ 500)
      ∧ determineColumnWidths 500 [schemaA, schemaB] = .ok [100, 200]
      ∧ (([100, 200] : List ℚ).filter (fun w => w ≠ 0)).sum ≤ 500 :=
  ⟨by with_unfolding_all decide, by with_unfolding_all decide, by with_unfolding_all decide, by with_unfolding_all decide,
   claim_C2 500 [schemaA, schemaB] [100, 200]
     (by with_unfolding_all decide) (by with_unfolding_all decide) (by with_unfolding_all decide) (by with_unfolding_all decide)⟩

/-- Claim C3: every successful call returns one entry per input schema
in input order: the result is exactly the input schemas mapped through
the resolver's key-to-width assignment, with `0` for an unassigned
(omitted) key, and in particular the lengths agree. -/
theorem claim_C3 (cw : ℚ) (schemas : List Schema) (ws : List ℚ)
    (hnd : (schemas.map (fun s => s.key)).Nodup)
    (hok : determineColumnWidths cw schemas = .ok ws) :
    ws.length = schemas.length
      ∧ ws = schemas.map
          (fun s => lookupD (resolverWidthMap cw schemas) s.key) := by
  have hws := determineColumnWidths_ok_core hok
  refine ⟨?_, hws.trans rfl⟩
  rw [hws]
  unfold determineColumnWidthsCore
  exact List.length_map _ _

/-- Claim C3 witness at `(1000, [single{50,100,1}]) = [100]`. -/
theorem claim_C3_witness :
    ([schemaSingle].map (fun s => s.key)).Nodup
      ∧ determineColumnWidths 1000 [schemaSingle] = .ok [100]
      ∧ ([100] : List ℚ).length = [schemaSingle].length
      ∧ ([100] : List ℚ) = [schemaSingle].map
          (fun s => lookupD (resolverWidthMap 1000 [schemaSingle]) s.key) :=
  ⟨by with_unfolding_all decide, by with_unfolding_all decide,
   (claim_C3 1000 [schemaSingle] [100] (by with_unfolding_all decide) (by with_unfolding_all decide)).1,
   (claim_C3 1000 [schemaSingle] [100] (by with_unfolding_all decide) (by with_unfolding_all decide)).2⟩

/-- Claim C4: in the constrained branch (Step 5 check passed and
`contentWidth <` the visible `maxWidth` sum), the computed widths are
the first-come allocation over the established visible order: item `i`
gets its `minWidth` plus `min(maxWidth - minWidth, ...)` of whatever
budget is left after the items before it took their fill — here in
closed form with prefix sums of the gaps.  The concrete Step 6 example
`(500, [a, b(hide), c(grow), d]) = [100, 150, 150, 100]` also holds. -/
theorem claim_C4 :
    (∀ (cw : ℚ) (schemas : List Schema),
      (∀ s ∈ schemas, s.minWidth ≤ s.maxWidth) →
      sumMin (visibleFinal cw schemas) ≤ cw →
      cw < sumMax (visibleFinal cw schemas) →
      ∀ i, i < (visibleFinal cw schemas).length →
        ((resolverAssignment cw schemas).2).getD i 0
          = ((visibleFinal cw schemas).getD i default).minWidth
            + min (((visibleFinal cw schemas).getD i default).maxWidth
                - ((visibleFinal cw schemas).getD i default).minWidth)
                (max (cw - sumMin (visibleFinal cw schemas)
                  - (((visibleFinal cw schemas).take i).map
                      (fun t => t.maxWidth - t.minWidth)).sum) 0))
    ∧ determineColumnWidths 500 [schemaA, schemaBHide, schemaCGrow, schemaD]
        = .ok [100, 150, 150, 100] := by
  constructor
  · intro cw schemas hminmax hfb hlt i hi
    have h1 : ¬ sumMin (visibleFinal cw schemas) > cw := not_lt.mpr hfb
    have h2 : ¬ cw ≥ sumMax (visibleFinal cw schemas) := not_le.mpr hlt
    have ha2 : (resolverAssignment cw schemas).2
        = distribute (visibleFinal cw schemas)
            (cw - sumMin (visibleFinal cw schemas)) := by
      rw [resolverAssignment_constrained h1 h2]
    rw [ha2]
    exact distribute_getD _ _
      (fun s hs => hminmax s (mem_visibleFinal hs)) i hi
  · with_unfolding_all decide

/-- Claim C4 witness: the general first-come characterisation applied
at the concrete constrained-branch input `(500, [a, b(hide), c(grow), d])`
and index 0. -/
theorem claim_C4_witness :
    (∀ s ∈ [schemaA, schemaBHide, schemaCGrow, schemaD],
        s.minWidth ≤ s.maxWidth)
      ∧ sumMin (visibleFinal 500 [schemaA, schemaBHide, schemaCGrow, schemaD])
          ≤ 500
      ∧ 500 < sumMax
          (visibleFinal 500 [schemaA, schemaBHide, schemaCGrow, schemaD])
      ∧ 0 < (visibleFinal 500
          [schemaA, schemaBHide, schemaCGrow, schemaD]).length
      ∧ ((resolverAssignment 500
            [schemaA, schemaBHide, schemaCGrow, schemaD]).2).getD 0 0
          = ((visibleFinal 500
                [schemaA, schemaBHide, schemaCGrow, schemaD]).getD 0
                  default).minWidth
            + min (((visibleFinal 500
                  [schemaA, schemaBHide, schemaCGrow, schemaD]).getD 0
                    default).maxWidth
                - ((visibleFinal 500
                  [schemaA, schemaBHide, schemaCGrow, schemaD]).getD 0
                    default).minWidth)
                (max (500 - sumMin (visibleFinal 500
                    [schemaA, schemaBHide, schemaCGrow, schemaD])
                  - (((visibleFinal 500
                      [schemaA, schemaBHide, schemaCGrow, schemaD]).take 0).map
                        (fun t => t.maxWidth - t.minWidth)).sum) 0) :=
  ⟨by with_unfolding_all decide, by with_unfolding_all decide, by with_unfolding_all decide, by with_unfolding_all decide,
   claim_C4.1 500 [schemaA, schemaBHide, schemaCGrow, schemaD]
     (by with_unfolding_all decide) (by with_unfolding_all decide) (by with_unfolding_all decide) 0 (by with_unfolding_all decide)⟩

/-- Claim C5: in the slack branch (`contentWidth ≥` the visible
`maxWidth` sum), every visible item receives its `maxWidth`, plus an
equal share `(contentWidth - sumMax) / n` for the `n` growable items;
when `n = 0` all items stay at exactly `maxWidth` and the width sum is
`sumMax`, leaving the extra space unallocated. -/
theorem claim_C5 (cw : ℚ) (schemas : List Schema)
    (hgood : ∀ s ∈ schemas, 0 ≤ s.minWidth ∧ s.minWidth ≤ s.maxWidth)
    (hslack : sumMax (visibleFinal cw schemas) ≤ cw) :
    (resolverAssignment cw schemas).2
      = (visibleFinal cw schemas).map (fun s =>
          s.maxWidth + (if s.isAllowedToGrowBeyondMaxWidth then
            (cw - sumMax (visibleFinal cw schemas))
              / (growCount (visibleFinal cw schemas) : ℚ) else 0))
    ∧ (growCount (visibleFinal cw schemas) = 0 →
        (resolverAssignment cw schemas).2
          = (visibleFinal cw schemas).map (fun s => s.maxWidth)
        ∧ ((resolverAssignment cw schemas).2).sum
            = sumMax (visibleFinal cw schemas)) := by
  have hf := slack_widths_formula cw schemas hgood hslack
  refine ⟨hf, fun hn => ?_⟩
  have hnone : ∀ s ∈ visibleFinal cw schemas,
      ¬ s.isAllowedToGrowBeyondMaxWidth = true := by
    have hnil : (visibleFinal cw schemas).filter
        (fun s => s.isAllowedToGrowBeyondMaxWidth) = [] :=
      List.length_eq_zero.mp hn
    exact List.filter_eq_nil_iff.mp hnil
  have hmax : (resolverAssignment cw schemas).2
      = (visibleFinal cw schemas).map (fun s => s.maxWidth) := by
    rw [hf]
    apply List.map_congr_left
    intro s hs
    simp [hnone s hs]
  refine ⟨hmax, ?_⟩
  rw [hmax]
  rfl

/-- Claim C5 witness at the slack-branch input
`(400, [a{50,100,1}, b{100,200,2,grow}])`. -/
theorem claim_C5_witness :
    (∀ s ∈ [schemaA, schemaBGrow], 0 ≤ s.minWidth ∧ s.minWidth ≤ s.maxWidth)
      ∧ sumMax (visibleFinal 400 [schemaA, schemaBGrow]) ≤ 400
      ∧ (resolverAssignment 400 [schemaA, schemaBGrow]).2
          = (visibleFinal 400 [schemaA, schemaBGrow]).map (fun s =>
              s.maxWidth + (if s.isAllowedToGrowBeyondMaxWidth then
                (400 - sumMax (visibleFinal 400 [schemaA, schemaBGrow]))
                  / (growCount (visibleFinal 400 [schemaA, schemaBGrow]) : ℚ)
                else 0)) :=
  ⟨by with_unfolding_all decide, by with_unfolding_all decide,
   (claim_C5 400 [schemaA, schemaBGrow] (by with_unfolding_all decide) (by with_unfolding_all decide)).1⟩

/-- Claim C6: on every successful call, each non-zero returned entry is
at least the corresponding schema's `minWidth`; and when the Step 5
fallback is active, every visible item's entry is exactly its
`minWidth`. -/
theorem claim_C6 (cw : ℚ) (schemas : List Schema) (ws : List ℚ)
    (hok : determineColumnWidths cw schemas = .ok ws) :
    (∀ p ∈ schemas.zip ws, p.2 ≠ 0 → p.1.minWidth ≤ p.2)
    ∧ (sumMin (visibleFinal cw schemas) > cw →
        ∀ p ∈ schemas.zip ws, p.1 ∈ visibleFinal cw schemas →
          p.2 = p.1.minWidth) := by
  have hws := determineColumnWidths_ok_core hok
  by_cases hne : schemas = []
  · subst hne
    exact ⟨fun p hp => by simp at hp, fun hfb p hp => by simp at hp⟩
  · have hd := determineColumnWidths_ok_debugs hne hok
    have hfacts := debugs_ok hd
    have hminmax := hfacts.2.1
    have hnd := hfacts.2.2.2
    subst hws
    constructor
    · intro p hp hp2
      rw [zip_core] at hp
      obtain ⟨s, hs, rfl⟩ := List.mem_map.mp hp
      rcases core_entry cw hnd hs with ⟨hnv, h0⟩ | ⟨w, hw, heq⟩
      · exact absurd h0 (by simpa using hp2)
      · show s.minWidth ≤ lookupD (resolverWidthMap cw schemas) s.key
        rw [heq]
        exact assignment_width_ge_min hminmax hw
    · intro hfb p hp hpv
      rw [zip_core] at hp
      obtain ⟨s, hs, rfl⟩ := List.mem_map.mp hp
      show lookupD (resolverWidthMap cw schemas) s.key = s.minWidth
      rcases core_entry cw hnd hs with ⟨hnv, h0⟩ | ⟨w, hw, heq⟩
      · exact absurd hpv hnv
      · rw [heq]
        have ha2 : (resolverAssignment cw schemas).2
            = (visibleFinal cw schemas).map (fun t => t.minWidth) := by
          rw [resolverAssignment_fallback hfb]
        rw [ha2] at hw
        have hzip : (visibleFinal cw schemas).zip
            ((visibleFinal cw schemas).map (fun t => t.minWidth))
            = (visibleFinal cw schemas).map (fun t => (t, t.minWidth)) := by
          have h := List.zip_map' id (fun t => t.minWidth)
            (visibleFinal cw schemas)
          simpa using h
        rw [hzip] at hw
        obtain ⟨t, ht, hts⟩ := List.mem_map.mp hw
        rw [Prod.mk.injEq] at hts
        obtain ⟨rfl, rfl⟩ := hts
        rfl

/-- Claim C6 witness at `(500, [a, b]) = [100, 200]`. -/
theorem claim_C6_witness :
    determineColumnWidths 500 [schemaA, schemaB] = .ok [100, 200]
      ∧ (∀ p ∈ [schemaA, schemaB].zip ([100, 200] : List ℚ),
          p.2 ≠ 0 → p.1.minWidth ≤ p.2) :=
  ⟨by with_unfolding_all decide,
   (claim_C6 500 [schemaA, schemaB] [100, 200] (by with_unfolding_all decide)).1⟩

/-- Claim C7 counterexample: the claim only assumes
`minWidth ≤ maxWidth`.  With the validator-accepted input
`(0, [a{min:-5, max:-3, pr:1, hide}])` the call succeeds with `[0]`,
and the omitted non-growable item's entry `0` exceeds its negative
`maxWidth = -3`. -/
theorem claim_C7_counterexample :
    (∀ s ∈ [schemaNeg], s.minWidth ≤ s.maxWidth)
      ∧ determineColumnWidths 0 [schemaNeg] = .ok [0]
      ∧ schemaNeg.isAllowedToGrowBeyondMaxWidth = false
      ∧ ¬ ((0 : ℚ) ≤ schemaNeg.maxWidth) := by
  refine ⟨by with_unfolding_all decide, by with_unfolding_all decide, by with_unfolding_all decide, by with_unfolding_all decide⟩

/-- Claim C7 as amended: with the spec's data-model invariants
(`0 ≤ minWidth` and `minWidth ≤ maxWidth` for every schema), every
successful call gives each non-growable schema a result of at most its
`maxWidth`. -/
theorem claim_C7_amended (cw : ℚ) (schemas : List Schema) (ws : List ℚ)
    (hgood : ∀ s ∈ schemas, 0 ≤ s.minWidth ∧ s.minWidth ≤ s.maxWidth)
    (hok : determineColumnWidths cw schemas = .ok ws) :
    ∀ p ∈ schemas.zip ws, ¬ p.1.isAllowedToGrowBeyondMaxWidth →
      p.2 ≤ p.1.maxWidth := by
  have hws := determineColumnWidths_ok_core hok
  by_cases hne : schemas = []
  · subst hne
    intro p hp
    simp at hp
  · have hd := determineColumnWidths_ok_debugs hne hok
    have hfacts := debugs_ok hd
    have hminmax := hfacts.2.1
    have hnd := hfacts.2.2.2
    subst hws
    intro p hp hgrow
    rw [zip_core] at hp
    obtain ⟨s, hs, rfl⟩ := List.mem_map.mp hp
    rcases core_entry cw hnd hs with ⟨hnv, h0⟩ | ⟨w, hw, heq⟩
    · show lookupD (resolverWidthMap cw schemas) s.key ≤ s.maxWidth
      rw [h0]
      have hg := hgood s hs
      linarith [hg.1, hg.2]
    · show lookupD (resolverWidthMap cw schemas) s.key ≤ s.maxWidth
      rw [heq]
      exact assignment_width_le_max hminmax hgrow hw

/-- Claim C7 amended witness at `(500, [a, b]) = [100, 200]`. -/
theorem claim_C7_witness :
    (∀ s ∈ [schemaA, schemaB], 0 ≤ s.minWidth ∧ s.minWidth ≤ s.maxWidth)
      ∧ determineColumnWidths 500 [schemaA, schemaB] = .ok [100, 200]
      ∧ (∀ p ∈ [schemaA, schemaB].zip ([100, 200] : List ℚ),
          ¬ p.1.isAllowedToGrowBeyondMaxWidth → p.2 ≤ p.1.maxWidth) :=
  ⟨by with_unfolding_all decide, by with_unfolding_all decide,
   claim_C7_amended 500 [schemaA, schemaB] [100, 200]
     (by with_unfolding_all decide) (by with_unfolding_all decide)⟩

/-- Claim C8 counterexample: two schemas with the same `shrinkPriority`
do not trigger the dedicated duplicate-priority error; the consecutive
check at lines 21-27 fires first (for `[p, p]`, `p + 1 ≠ p`), so the
call raises the non-consecutive-priorities message, a different string
from the duplicate-priority one. -/
theorem claim_C8_counterexample :
    determineColumnWidths 100 [schemaP1a, schemaP1b]
        = .error consecutiveMsg
      ∧ consecutiveMsg ≠ duplicatePriorityMsg :=
  ⟨by with_unfolding_all decide, by with_unfolding_all decide⟩

/-- Claim C8 as amended: whenever the schema list has a duplicated
`shrinkPriority`, the validator raises the non-consecutive-priorities
error — the dedicated duplicate-priority check (lines 50-59) exists
with its own distinct message but is pre-empted by the consecutive
check (lines 21-27), which always fails on a duplicate. -/
theorem claim_C8_amended (cw : ℚ) (schemas : List Schema)
    (hdup : ¬ (schemas.map (fun s => s.shrinkPriority)).Nodup) :
    determineColumnWidths cw schemas = .error consecutiveMsg
      ∧ consecutiveMsg ≠ duplicatePriorityMsg :=
  ⟨dup_priorities_error cw schemas hdup, by with_unfolding_all decide⟩

/-- Claim C8 amended witness at `(100, [a{pr:1}, b{pr:1}])`. -/
theorem claim_C8_witness :
    ¬ (([schemaP1a, schemaP1b].map (fun s => s.shrinkPriority)).Nodup)
      ∧ determineColumnWidths 100 [schemaP1a, schemaP1b]
          = .error consecutiveMsg :=
  ⟨by with_unfolding_all decide, (claim_C8_amended 100 [schemaP1a, schemaP1b] (by with_unfolding_all decide)).1⟩

/-- Claim C9: the reintroduction pass implements the spec's Step 4
relation (each hideable, in the established ascending-priority order,
is admitted with width `min(maxWidth, slack)` deducted from the slack
exactly when its `minWidth` fits, and is skipped otherwise); it runs
only when the post-shrink slack is strictly positive; a hideable left
out of the visible set yields entry 0; and the two concrete runs
`(200, [a{10,200}, b{100,150,hide}]) = [200, 0]` (b does not fit) and
`(250, [a{10,200}, b{20,100,hide}]) = [200, 50]` (b admitted clipped to
the slack 50) hold. -/
theorem claim_C9 :
    (∀ (hs : List Schema) (rem : ℚ),
        ReintroSpec hs rem (reintroduce hs rem).1 (reintroduce hs rem).2)
    ∧ (∀ (cw : ℚ) (schemas : List Schema),
        ¬ (postShrink cw schemas).2 > 0 →
        (admittedPairs cw schemas).1 = []
          ∧ visibleFinal cw schemas = fixedVisible schemas)
    ∧ (∀ (cw : ℚ) (schemas : List Schema) (s : Schema),
        (schemas.map (fun t => t.key)).Nodup → s ∈ schemas →
        s ∉ visibleFinal cw schemas →
        lookupD (resolverWidthMap cw schemas) s.key = 0)
    ∧ determineColumnWidths 200 [schemaA2, schemaBHide2] = .ok [200, 0]
    ∧ determineColumnWidths 250 [schemaA2, schemaBHide3] = .ok [200, 50] := by
  refine ⟨reintroduce_spec, ?_, ?_, by with_unfolding_all decide, by with_unfolding_all decide⟩
  · intro cw schemas hng
    have h1 : (admittedPairs cw schemas).1 = [] := by
      unfold admittedPairs
      rw [if_neg hng]
    refine ⟨h1, ?_⟩
    rw [show visibleFinal cw schemas
        = fixedVisible schemas
          ++ (admittedPairs cw schemas).1.map Prod.fst from rfl, h1]
    simp
  · intro cw schemas s hnd hs hnv
    exact lookupD_omitted hnd hs hnv

/-- Claim C9 witness: at `(200, [a{10,200}, b{100,150,hide}])` the
post-shrink slack is 0, so nothing is reintroduced. -/
theorem claim_C9_witness :
    ¬ (postShrink 200 [schemaA2, schemaBHide2]).2 > 0
      ∧ ((admittedPairs 200 [schemaA2, schemaBHide2]).1 = []
          ∧ visibleFinal 200 [schemaA2, schemaBHide2]
              = fixedVisible [schemaA2, schemaBHide2]) :=
  ⟨by with_unfolding_all decide, claim_C9.2.1 200 [schemaA2, schemaBHide2] (by with_unfolding_all decide)⟩

/-- Claim C10 (implicit): because the always-enabled validator rejects
any input whose total `minWidth` sum exceeds `contentWidth`, and the
final visible set only ever loses `minWidth` mass relative to the full
input (for nonnegative `minWidth`s), the Step 5 fallback condition is
false on every non-throwing non-empty call: the resolver returns
through the Step 6 slack or constrained branch. -/
theorem claim_C10 (cw : ℚ) (schemas : List Schema) (ws : List ℚ)
    (hmin0 : ∀ s ∈ schemas, 0 ≤ s.minWidth) (hne : schemas ≠ [])
    (hok : determineColumnWidths cw schemas = .ok ws) :
    ¬ sumMin (visibleFinal cw schemas) > cw
    ∧ (resolverAssignment cw schemas).2
        = (if cw ≥ sumMax (visibleFinal cw schemas) then
            ((visibleFinal cw schemas).zip (currentWidths cw schemas)).map
              (fun p =>
                if p.1.isAllowedToGrowBeyondMaxWidth then
                  p.2 + (cw - sumMax (visibleFinal cw schemas))
                      / (growCount (visibleFinal cw schemas) : ℚ)
                else p.2)
          else distribute (visibleFinal cw schemas)
            (cw - sumMin (visibleFinal cw schemas))) := by
  have hfb := fallback_unreachable hmin0 hne hok
  have h1 : ¬ sumMin (visibleFinal cw schemas) > cw := not_lt.mpr hfb
  refine ⟨h1, ?_⟩
  by_cases h2 : cw ≥ sumMax (visibleFinal cw schemas)
  · rw [if_pos h2, resolverAssignment_slack h1 h2]
  · rw [if_neg h2, resolverAssignment_constrained h1 h2]

/-- Claim C10 witness at `(300, [a{50,100,1}, b{100,200,2,hide}])`. -/
theorem claim_C10_witness :
    (∀ s ∈ [schemaA, schemaBHide], 0 ≤ s.minWidth)
      ∧ [schemaA, schemaBHide] ≠ []
      ∧ determineColumnWidths 300 [schemaA, schemaBHide] = .ok [100, 200]
      ∧ ¬ sumMin (visibleFinal 300 [schemaA, schemaBHide]) > 300 :=
  ⟨by with_unfolding_all decide, by with_unfolding_all decide, by with_unfolding_all decide,
   (claim_C10 300 [schemaA, schemaBHide] [100, 200]
     (by with_unfolding_all decide) (by with_unfolding_all decide) (by with_unfolding_all decide)).1⟩

end ResponsiveConductor
